import Mathlib

/-
Verification development for the gervill mirror-and-rewrite tool, a small
JavaScript program that mirrors a subtree of a remote repository and derives
renamed and comparison copies of every mirrored file.

Shallow embedding conventions:
  - JavaScript strings are embedded as List Char.
  - The concrete regular expressions of the program are embedded as
    executable matchers that implement the exact backtracking behaviour of
    the JavaScript engine on those concrete patterns.
  - Effectful code is embedded as traces of explicit Act values over an
    abstract remote repository, given as a total function from paths to
    response bodies, and an abstract output store.
  - External collaborators are parameters: the comment stripping library is
    a function parameter named strip, and the exclusion list loaded from
    skipclasses.json is a list parameter named skip.
  - Recursion over the remote tree is bounded by an explicit fuel argument;
    all temporal theorems quantify over every fuel value.
-/

def str (s : String) : List Char := s.data

/- The ASCII part of the JavaScript whitespace class backslash-s, which is
also the character class used by the trim method. Listing documents and
Java sources are ASCII, so the non ASCII whitespace code points are not
modelled. -/
def jsIsSpace (c : Char) : Bool :=
  c == ' ' || c == '\t' || c == '\n' || c == '\r' || c == '\x0b' || c == '\x0c'

/- Literal matching: eatLit p s returns the remainder of s after the literal
p, when p is a leading literal of s. -/
def eatLit : List Char → List Char → Option (List Char)
  | [], s => some s
  | _ :: _, [] => none
  | a :: p, b :: s => if a = b then eatLit p s else none

/- JavaScript split on a single character separator. -/
def splitOnChar (sep : Char) : List Char → List (List Char)
  | [] => [[]]
  | c :: rest =>
    if c = sep then [] :: splitOnChar sep rest
    else
      match splitOnChar sep rest with
      | [] => [[c]]
      | t :: ts => (c :: t) :: ts

def jsTrim (s : List Char) : List Char :=
  ((s.dropWhile jsIsSpace).reverse.dropWhile jsIsSpace).reverse

/- mapOption models a map whose callback can throw: the first failing
element aborts the whole map with no result. -/
def mapOption (f : α → Option β) : List α → Option (List β)
  | [] => some []
  | a :: l =>
    match f a with
    | none => none
    | some b =>
      match mapOption f l with
      | none => none
      | some bs => some (b :: bs)

/- ------------------ Directory Lister: getFileListing ------------------ -/

structure ListingEntry where
  isDirectory : Bool
  name : List Char
deriving DecidableEq

/- Source: isDirectory = entry => entry[0] === 'd'. -/
def isDirectoryLine (entry : List Char) : Bool := entry.head? == some 'd'

/- Source: entry.endsWith a literal dot java suffix. -/
def endsWithJava (entry : List Char) : Bool := (str ".java").isSuffixOf entry

/- Source: entry.trim() !== '' && (entry.endsWith('.java') || isDirectory(entry)). -/
def keepLine (entry : List Char) : Bool :=
  !(jsTrim entry).isEmpty && (endsWithJava entry || isDirectoryLine entry)

def keptLines (doc : List Char) : List (List Char) :=
  (splitOnChar '\n' doc).filter keepLine

/- Source: entry.match of a trailing nonspace run anchored at end of input,
indexed at 0. The match is none exactly when the line ends in whitespace,
in which case indexing the null result throws. -/
def finalToken (s : List Char) : Option (List Char) :=
  let t := (s.reverse.takeWhile (fun c => !jsIsSpace c)).reverse
  if t.isEmpty then none else some t

def toListingEntry (entry : List Char) : Option ListingEntry :=
  (finalToken entry).map fun n => { isDirectory := isDirectoryLine entry, name := n }

/- getFileListing parses the listing document fetched for a directory.
A thrown TypeError from the name extraction is modelled as none. -/
def getFileListing (doc : List Char) : Option (List ListingEntry) :=
  mapOption toListingEntry (keptLines doc)

/- ------------- Rewrite Engine: the gervill renaming regex ------------- -/

/- Generic single pass global replace, the semantics of the JavaScript
String replace method with the g flag for a nonempty match. The matcher
returns the matched text, its replacement and the remaining suffix. The
fuel argument only bounds the recursion; one unit is spent per scan step
and every step consumes at least one character, so an initial fuel equal
to the length of the subject is always sufficient. -/
def replaceScanF (matcher : List Char → Option (List Char × List Char × List Char)) :
    Nat → List Char → List Char
  | _, [] => []
  | 0, s => s
  | fuel + 1, c :: rest =>
    match matcher (c :: rest) with
    | some (_, rep, r) => rep ++ replaceScanF matcher fuel r
    | none => c :: replaceScanF matcher fuel rest

def replaceScan (matcher : List Char → Option (List Char × List Char × List Char))
    (s : List Char) : List Char :=
  replaceScanF matcher s.length s

/- A matcher is shrinking when every match leaves a strictly shorter
remainder; all matchers below match at least one character. -/
def Shrinking (matcher : List Char → Option (List Char × List Char × List Char)) : Prop :=
  ∀ s m rep r, matcher s = some (m, rep, r) → r.length < s.length

/- The separator alternation of the source, in the exact order of the
pattern: dot, slash, one backslash, two backslashes. -/
def seps4 : List (List Char) := [['.'], ['/'], ['\\'], ['\\', '\\']]

/- joinSep sep parts is the text matched by the alternative built from a
dotted package name: the parts interleaved with one separator value, as
forced by the backreferences of the generated pattern. -/
def joinSep (sep : List Char) : List (List Char) → List Char
  | [] => []
  | [p] => p
  | p :: ps => p ++ sep ++ joinSep sep ps

def trySep (parts : List (List Char)) (sep s : List Char) :
    Option (List Char × List Char × List Char) :=
  match eatLit (joinSep sep parts) s with
  | some r => some (joinSep sep parts, sep, r)
  | none => none

/- One package alternative at one position: the four separator branches are
tried in pattern order, exactly as the backtracking engine does. -/
def tryMatchPkg (parts : List (List Char)) (s : List Char) :
    Option (List Char × List Char × List Char) :=
  match trySep parts ['.'] s with
  | some x => some x
  | none =>
    match trySep parts ['/'] s with
    | some x => some x
    | none =>
      match trySep parts ['\\'] s with
      | some x => some x
      | none => trySep parts ['\\', '\\'] s

/- Source: const packages = two dotted package names. -/
def packages : List (List Char) := [str "javax.sound", str "com.sun.media.sound"]

/- The top level alternation over the configured package names, in order. -/
def matchPackagesAt : List (List Char) → List Char → Option (List Char × List Char × List Char)
  | [], _ => none
  | pkg :: more, s =>
    match tryMatchPkg (splitOnChar '.' pkg) s with
    | some x => some x
    | none => matchPackagesAt more s

def matchGervillAt (s : List Char) : Option (List Char × List Char × List Char) :=
  matchPackagesAt packages s

/- The replacer callback of the source: the literal gervill, the captured
separator, then the whole match. -/
def gervillReplacer (sep m : List Char) : List Char := str "gervill" ++ sep ++ m

def gervillMatcher (s : List Char) : Option (List Char × List Char × List Char) :=
  match matchGervillAt s with
  | some (m, sep, r) => some (m, gervillReplacer sep m, r)
  | none => none

def replaceGervill (s : List Char) : List Char := replaceScan gervillMatcher s

/- The eight texts the generated pattern can match: each configured package
joined by each separator alternative, in pattern order. -/
def gervillMatchTexts : List (List Char) :=
  [joinSep ['.'] (splitOnChar '.' (str "javax.sound")),
   joinSep ['/'] (splitOnChar '.' (str "javax.sound")),
   joinSep ['\\'] (splitOnChar '.' (str "javax.sound")),
   joinSep ['\\', '\\'] (splitOnChar '.' (str "javax.sound")),
   joinSep ['.'] (splitOnChar '.' (str "com.sun.media.sound")),
   joinSep ['/'] (splitOnChar '.' (str "com.sun.media.sound")),
   joinSep ['\\'] (splitOnChar '.' (str "com.sun.media.sound")),
   joinSep ['\\', '\\'] (splitOnChar '.' (str "com.sun.media.sound"))]

/- The six match texts of the claim: one of the three single separator
characters, the same at every position of a configured package name. -/
def gervillSingleSepTexts : List (List Char) :=
  [joinSep ['.'] (splitOnChar '.' (str "javax.sound")),
   joinSep ['/'] (splitOnChar '.' (str "javax.sound")),
   joinSep ['\\'] (splitOnChar '.' (str "javax.sound")),
   joinSep ['.'] (splitOnChar '.' (str "com.sun.media.sound")),
   joinSep ['/'] (splitOnChar '.' (str "com.sun.media.sound")),
   joinSep ['\\'] (splitOnChar '.' (str "com.sun.media.sound"))]

/- --------------- Rewrite Engine: the doc tag regex pass --------------- -/

def notBrace (c : Char) : Bool := !(c == '\x7b' || c == '\x7d')

/- The link alternative: an at-link opener, at least one non brace
character, then a closing brace; the replacement is the inner capture. -/
def linkInner (inner rest2 : List Char) : Option (List Char × List Char × List Char) :=
  match inner, rest2 with
  | [], _ => none
  | _ :: _, d :: r =>
    if d = '\x7d' then some (str "\x7b@link" ++ inner ++ ['\x7d'], inner, r) else none
  | _ :: _, [] => none

def linkAlt (s : List Char) : Option (List Char × List Char × List Char) :=
  match eatLit (str "\x7b@link") s with
  | none => none
  | some t => linkInner (t.takeWhile notBrace) (t.dropWhile notBrace)

/- The tag alternative: the pattern matches only the literal tag token and
captures the keyword without the at sign, which the coalesce helper then
uses as the replacement. -/
def tagAlt (s : List Char) : Option (List Char × List Char × List Char) :=
  match eatLit (str "@throws") s with
  | some r => some (str "@throws", str "throws", r)
  | none =>
    match eatLit (str "@see") s with
    | some r => some (str "@see", str "see", r)
    | none => none

def docTagMatcher (s : List Char) : Option (List Char × List Char × List Char) :=
  match linkAlt s with
  | some x => some x
  | none => tagAlt s

def replaceDocTags (s : List Char) : List Char := replaceScan docTagMatcher s

/- The renamed copy content: the package renaming pass followed by the doc
tag pass, exactly the two chained replace calls of createFileCopies. -/
def newFileContent (originalContent : List Char) : List Char :=
  replaceDocTags (replaceGervill originalContent)

/- ------------- Rewrite Engine: the header stripping regex ------------- -/

def countWhile (p : Char → Bool) : List Char → Nat
  | [] => 0
  | c :: rest => if p c then countWhile p rest + 1 else 0

/- The nonspace-plus-semicolon piece: the greedy nonspace run backtracks
until the next character is a semicolon, so the piece consumes the run up
to and including its last semicolon, which must sit at index at least one. -/
def matchSemiToken (s : List Char) : Option Nat :=
  let tokenRun := s.takeWhile (fun c => !jsIsSpace c)
  let k := (tokenRun.reverse.dropWhile (fun c => !(c == ';'))).length
  if 2 ≤ k then some k else none

/- The starred import group: each iteration is the import literal, at least
one whitespace, a semicolon token, then optional whitespace. A partially
matching iteration is abandoned whole, ending the star. -/
def importsRun : Nat → List Char → Nat
  | 0, _ => 0
  | fuel + 1, s =>
    match eatLit (str "import") s with
    | none => 0
    | some t =>
      let sp := countWhile jsIsSpace t
      if sp = 0 then 0
      else
        match matchSemiToken (t.drop sp) with
        | none => 0
        | some tok =>
          let t2 := (t.drop sp).drop tok
          let sp2 := countWhile jsIsSpace t2
          6 + sp + tok + sp2 + importsRun fuel (t2.drop sp2)

/- The part of the header pattern after the leading universal star: the
package literal, whitespace, a semicolon token, whitespace, then the
group of imports. Everything after the package keyword is greedy and its
continuation always succeeds, so matching is deterministic. -/
def headerMatchAt (s : List Char) : Option Nat :=
  match eatLit (str "package") s with
  | none => none
  | some t =>
    let sp := countWhile jsIsSpace t
    if sp = 0 then none
    else
      match matchSemiToken (t.drop sp) with
      | none => none
      | some tok =>
        let t2 := (t.drop sp).drop tok
        let sp2 := countWhile jsIsSpace t2
        let t3 := t2.drop sp2
        some (7 + sp + tok + sp2 + importsRun t3.length t3)

/- The leading anchored universal star is greedy: the engine commits to the
largest start position whose continuation matches. -/
def lastHeaderEnd (s : List Char) : Option Nat :=
  (List.range (s.length + 1)).reverse.findSome? fun i =>
    match headerMatchAt (s.drop i) with
    | some n => some (i + n)
    | none => none

/- Replacing the single anchored header match by the empty string. -/
def packageAndImportsReplace (s : List Char) : List Char :=
  match lastHeaderEnd s with
  | some e => s.drop e
  | none => s

/- cleanForComparison: strip the header, then strip comments through the
external collaborator, passed here as the function strip. -/
def cleanForComparison (strip : List Char → List Char) (contents : List Char) : List Char :=
  strip (packageAndImportsReplace contents)

/- ---------------------- Effects and their traces ---------------------- -/

inductive OutTree where
  | original
  | renamed
  | originalComp
  | renamedComp
deriving DecidableEq

/- One observable effect. Paths of download, listFetch and write are the
remote-relative path of the file or directory; the output tree roots of
the source are carried by the OutTree tag. -/
inductive Act where
  | listFetch (path : List Char)
  | download (path : List Char)
  | mkdir (path : List Char)
  | write (tree : OutTree) (path : List Char) (content : List Char)
deriving DecidableEq

/- createFileCopies: three mkdir calls, then the three derived writes, in
source order, all computed from the one originalContent argument. -/
def createFileCopies (strip : List Char → List Char)
    (directory filename originalContent : List Char) : List Act :=
  let path := directory ++ '/' :: filename
  let nfc := newFileContent originalContent
  [Act.mkdir (str "../gervill-control/output/src/gervill/" ++ directory),
   Act.mkdir (str "../gervill-control/comp/original-comp/" ++ directory),
   Act.mkdir (str "../gervill-control/comp/gervill-comp/" ++ directory),
   Act.write OutTree.renamed path nfc,
   Act.write OutTree.originalComp path (cleanForComparison strip originalContent),
   Act.write OutTree.renamedComp path (cleanForComparison strip nfc)]

/- fetchFileAux: ensure the mirror directory, download the remote content,
write the raw mirror copy, and optionally derive the three copies. -/
def fetchFileAux (strip : List Char → List Char) (remote : List Char → List Char)
    (directory filename : List Char) (makeCopies : Bool) : List Act :=
  let path := directory ++ '/' :: filename
  [Act.mkdir (str "original/" ++ directory),
   Act.download path,
   Act.write OutTree.original path (remote path)]
  ++ (if makeCopies then createFileCopies strip directory filename (remote path) else [])

/- JavaScript dot matches anything but a line terminator. -/
def jsDotChar (c : Char) : Bool := !(c == '\n' || c == '\r')

/- JavaScript word characters. -/
def isWordChar (c : Char) : Bool := c.isAlphanum || c == '_'

/- The lookahead of the fetchFile split pattern: at least one word
character, one dot-class character, then the literal java. -/
def lookaheadWordJava (s : List Char) : Bool :=
  let w := countWhile isWordChar s
  (List.range w).any fun j0 =>
    match s.drop (j0 + 1) with
    | c :: rest2 => jsDotChar c && (eatLit (str "java") rest2).isSome
    | [] => false

def goSplitDirFile (acc : List Char) : List Char → List (List Char)
  | [] => [acc.reverse]
  | c :: rest =>
    if c == '/' && lookaheadWordJava rest then acc.reverse :: goSplitDirFile [] rest
    else goSplitDirFile (c :: acc) rest

/- The split of the combined path used by fetchFile: split at every slash
followed by the word-dot-java lookahead. -/
def jsSplitDirFile (path : List Char) : List (List Char) := goSplitDirFile [] path

/- fetchFile: destructure the first two split parts as directory and
filename. A missing second part is the undefined value, which string
interpolation renders as the literal word undefined. -/
def fetchFile (strip : List Char → List Char) (remote : List Char → List Char)
    (path : List Char) (makeCopies : Bool) : List Act :=
  let parts := jsSplitDirFile path
  fetchFileAux strip remote (parts.headD [])
    ((parts.get? 1).getD (str "undefined")) makeCopies

/- One loop step of fetchDirectoryAux. The Bool of the accumulator is the
still-running flag: a thrown error stops every later step, modelling the
abort-on-first-error policy. recurse is the recursive call one level
deeper. -/
def fetchStep (strip : List Char → List Char) (skip : List (List Char))
    (remote : List Char → List Char) (makeCopies : Bool) (directory : List Char)
    (recurse : List Char → List Act × Bool)
    (acc : List Act × Bool) (e : ListingEntry) : List Act × Bool :=
  if acc.2 = false then acc
  else
    let fileOrDirName := directory ++ '/' :: e.name
    if e.isDirectory then
      let res := recurse fileOrDirName
      (acc.1 ++ res.1, res.2)
    else if fileOrDirName ∈ skip then acc
    else (acc.1 ++ fetchFileAux strip remote directory e.name makeCopies, acc.2)

/- The entry loop of fetchDirectoryAux: fold the step over the listing
entries, starting from the already performed listing fetch. -/
def fetchEntriesFold (strip : List Char → List Char) (skip : List (List Char))
    (remote : List Char → List Char) (makeCopies : Bool) (directory : List Char)
    (recurse : List Char → List Act × Bool) (entries : List ListingEntry) :
    List Act × Bool :=
  entries.foldl (fetchStep strip skip remote makeCopies directory recurse)
    ([Act.listFetch directory], true)

/- fetchDirectoryAux: fetch and parse the listing of the directory, then
handle every entry in order. A listing parse failure aborts with only the
listing fetch performed. Fuel bounds the recursion depth; running out of
fuel stops the walk abnormally. -/
def fetchDirectoryAux (strip : List Char → List Char) (skip : List (List Char))
    (remote : List Char → List Char) : Nat → List Char → Bool → List Act × Bool
  | 0, _, _ => ([], false)
  | fuel + 1, directory, makeCopies =>
    match getFileListing (remote directory) with
    | none => ([Act.listFetch directory], false)
    | some entries =>
      fetchEntriesFold strip skip remote makeCopies directory
        (fun d => fetchDirectoryAux strip skip remote fuel d makeCopies) entries

/- Source: path.replace of one trailing slash by the empty string. -/
def dropTrailingSlash (p : List Char) : List Char :=
  if p.getLast? = some '/' then p.dropLast else p

def fetchDirectory (strip : List Char → List Char) (skip : List (List Char))
    (remote : List Char → List Char) (fuel : Nat) (path : List Char)
    (makeCopies : Bool) : List Act × Bool :=
  fetchDirectoryAux strip skip remote fuel (dropTrailingSlash path) makeCopies

/- The -d branch of main: the three fixed roots, each walked with copy
generation disabled, sequentially, stopping at the first abort. -/
def mainDashD (strip : List Char → List Char) (skip : List (List Char))
    (remote : List Char → List Char) (fuel : Nat) : List Act × Bool :=
  let r1 := fetchDirectory strip skip remote fuel (str "javax/sound/midi") false
  if r1.2 = false then (r1.1, false)
  else
    let r2 := fetchDirectory strip skip remote fuel (str "javax/sound/sampled") false
    if r2.2 = false then (r1.1 ++ r2.1, false)
    else
      let r3 := fetchDirectory strip skip remote fuel (str "com/sun/media/sound") false
      (r1.1 ++ r2.1 ++ r3.1, r3.2)

/- ------------------------- Copy Orchestrator ------------------------- -/

/- The already mirrored local tree under the original root: a directory
entry is either a file with its on-disk content or a subdirectory. -/
inductive Dirent where
  | file (name : List Char) (content : List Char) : Dirent
  | dir (name : List Char) (entries : List Dirent) : Dirent

/- createCopiesOfFilesInDir: walk the mirror in order; a file entry is read
and handed to createFileCopies, a directory entry is recursed into with
the slash-extended directory string. -/
def createCopiesOfFilesInDir (strip : List Char → List Char) :
    List Char → List Dirent → List Act
  | _, [] => []
  | directory, Dirent.file name content :: rest =>
    createFileCopies strip directory name content ++
      createCopiesOfFilesInDir strip directory rest
  | directory, Dirent.dir name sub :: rest =>
    createCopiesOfFilesInDir strip (directory ++ '/' :: name) sub ++
      createCopiesOfFilesInDir strip directory rest

/- createCopiesOfFiles starts at the empty directory string. -/
def createCopiesOfFiles (strip : List Char → List Char) (mirror : List Dirent) : List Act :=
  createCopiesOfFilesInDir strip [] mirror

/- --------------------- The output store semantics --------------------- -/

/- The state of the derived and mirror output trees: content by tree and
path. -/
def Store : Type := OutTree × List Char → Option (List Char)

def applyAct (st : Store) : Act → Store
  | Act.write t p c => fun k => if k = (t, p) then some c else st k
  | _ => st

def applyTrace (st : Store) (tr : List Act) : Store := tr.foldl applyAct st

def lastWrite (k : OutTree × List Char) : List Act → Option (List Char)
  | [] => none
  | Act.write t p c :: tr =>
    match lastWrite k tr with
    | some c2 => some c2
    | none => if k = (t, p) then some c else none
  | Act.listFetch _ :: tr => lastWrite k tr
  | Act.download _ :: tr => lastWrite k tr
  | Act.mkdir _ :: tr => lastWrite k tr

/- -------------------- Failure model for one call -------------------- -/

/- Sequential awaited effects with a success oracle: the performed effects
are the longest successful only prefix; the first failing effect throws
and nothing after it runs. -/
def performedActs (ok : Act → Bool) (acts : List Act) : List Act :=
  acts.takeWhile ok

def isWriteTree (t : OutTree) : Act → Bool
  | Act.write t2 _ _ => if t2 = t then true else false
  | _ => false

/- The write effects of a trace, as tree, path and content triples. -/
def writesOf (acts : List Act) : List (OutTree × List Char × List Char) :=
  acts.filterMap fun a =>
    match a with
    | Act.write t p c => some (t, p, c)
    | _ => none

/- The shape of every action a directory walk can emit: either a listing
fetch, or an action of a per file call whose combined path is not in the
exclusion list. -/
def benignAct (strip : List Char → List Char) (remote : List Char → List Char)
    (skip : List (List Char)) (makeCopies : Bool) (a : Act) : Prop :=
  (∃ d, a = Act.listFetch d) ∨
    ∃ d n, ¬ (d ++ '/' :: n) ∈ skip ∧ a ∈ fetchFileAux strip remote d n makeCopies

/- ----------------- Declarative specification predicates ----------------- -/

/- t is the final whitespace-delimited token of l: t is a nonempty
whitespace-free suffix of l and what precedes it is empty or ends in a
whitespace character. -/
def isFinalTokenOf (l t : List Char) : Prop :=
  t ≠ [] ∧ (∀ c ∈ t, jsIsSpace c = false) ∧
    ∃ pre, l = pre ++ t ∧ (pre = [] ∨ ∃ pre2 c, pre = pre2 ++ [c] ∧ jsIsSpace c = true)

/- The relation claimed between a kept listing line and its returned entry:
the directory flag is set exactly for lines whose first character is d,
and the name is the final whitespace-delimited token of the line. -/
def entryMatches (l : List Char) (e : ListingEntry) : Prop :=
  (e.isDirectory = true ↔ l.head? = some 'd') ∧ isFinalTokenOf l e.name

/- ======================= Theorems and lemmas ======================= -/

/- ---------------------- Basic list facts ---------------------- -/

theorem eatLit_sound : ∀ p s r : List Char, eatLit p s = some r → s = p ++ r := by
  intro p
  induction p with
  | nil => intro s r h; simp [eatLit] at h; simp [h]
  | cons a p ih =>
    intro s r h
    cases s with
    | nil => simp [eatLit] at h
    | cons b s =>
      simp only [eatLit] at h
      by_cases hab : a = b
      · subst hab
        simp at h
        simpa using ih s r h
      · simp [hab] at h

theorem eatLit_append (p r : List Char) : eatLit p (p ++ r) = some r := by
  induction p with
  | nil => simp [eatLit]
  | cons a p ih => simp [eatLit, ih]

theorem mem_takeWhile_pred {p : Char → Bool} :
    ∀ l : List Char, ∀ a ∈ l.takeWhile p, p a = true := by
  intro l
  induction l with
  | nil => intro a ha; simp [List.takeWhile] at ha
  | cons c rest ih =>
    intro a ha
    rw [List.takeWhile] at ha
    cases hc : p c with
    | false => simp [hc] at ha
    | true =>
      simp [hc] at ha
      rcases ha with h | h
      · simpa [h] using hc
      · exact ih a h

theorem dropWhile_head_pred {p : Char → Bool} :
    ∀ (l : List Char) (a : Char) (r : List Char), l.dropWhile p = a :: r → p a = false := by
  intro l
  induction l with
  | nil => intro a r h; simp [List.dropWhile] at h
  | cons c rest ih =>
    intro a r h
    rw [List.dropWhile] at h
    cases hc : p c with
    | false => simp [hc] at h; simpa [h.1] using hc
    | true => simp [hc] at h; exact ih a r h

theorem takeWhile_all_append {p : Char → Bool} {b : Char} (l t : List Char)
    (hl : ∀ c ∈ l, p c = true) (hb : p b = false) :
    (l ++ b :: t).takeWhile p = l ∧ (l ++ b :: t).dropWhile p = b :: t := by
  induction l with
  | nil => simp [List.takeWhile, List.dropWhile, hb]
  | cons c rest ih =>
    have hc : p c = true := hl c (by simp)
    have ih2 := ih (fun c2 hc2 => hl c2 (by simp [hc2]))
    simp [List.takeWhile, List.dropWhile, hc, ih2.1, ih2.2]

theorem mapOption_none_of_mem (f : α → Option β) :
    ∀ l : List α, ∀ a ∈ l, f a = none → mapOption f l = none := by
  intro l
  induction l with
  | nil => intro a ha; simp at ha
  | cons x rest ih =>
    intro a ha hfa
    rcases List.mem_cons.1 ha with h | h
    · subst h; simp [mapOption, hfa]
    · cases hfx : f x with
      | none => simp [mapOption, hfx]
      | some b => simp [mapOption, hfx, ih a h hfa]

theorem mapOption_forall₂ (f : α → Option β) (R : α → β → Prop) :
    ∀ l : List α, (∀ a ∈ l, ∃ b, f a = some b ∧ R a b) →
      ∃ bs, mapOption f l = some bs ∧ List.Forall₂ R l bs := by
  intro l
  induction l with
  | nil => intro _; exact ⟨[], rfl, List.Forall₂.nil⟩
  | cons x rest ih =>
    intro h
    rcases h x (by simp) with ⟨b, hfx, hR⟩
    rcases ih (fun a ha => h a (by simp [ha])) with ⟨bs, hrest, hF⟩
    exact ⟨b :: bs, by simp [mapOption, hfx, hrest], List.Forall₂.cons hR hF⟩

/- ---------------------- finalToken lemmas ---------------------- -/

theorem concat_isEmpty_false (l : List Char) (c : Char) : (l ++ [c]).isEmpty = false := by
  cases l <;> simp [List.isEmpty]

theorem finalToken_some_of_last {l : List Char} {c : Char}
    (hc : jsIsSpace c = false) : ∃ t, finalToken (l ++ [c]) = some t := by
  have hrev : (l ++ [c]).reverse = c :: l.reverse := by simp
  have htw : (l ++ [c]).reverse.takeWhile (fun c => !jsIsSpace c) =
      c :: l.reverse.takeWhile (fun c => !jsIsSpace c) := by
    rw [hrev, List.takeWhile]
    simp [hc]
  refine ⟨(c :: l.reverse.takeWhile (fun c => !jsIsSpace c)).reverse, ?_⟩
  simp only [finalToken, htw]
  rw [List.reverse_cons, if_neg]
  rw [concat_isEmpty_false]
  simp

theorem finalToken_isFinal {l t : List Char} (h : finalToken l = some t) :
    isFinalTokenOf l t := by
  simp only [finalToken] at h
  by_cases hemp : ((l.reverse.takeWhile (fun c => !jsIsSpace c)).reverse).isEmpty = true
  · rw [if_pos hemp] at h
    exact absurd h (by simp)
  · rw [if_neg hemp] at h
    have ht := Option.some.inj h
    refine ⟨?_, ?_, ?_⟩
    · intro hnil
      apply hemp
      rw [ht, hnil]
      rfl
    · intro c hc
      rw [← ht] at hc
      have hc2 : c ∈ l.reverse.takeWhile (fun c => !jsIsSpace c) := by simpa using hc
      have := mem_takeWhile_pred _ c hc2
      simpa using this
    · refine ⟨(l.reverse.dropWhile (fun c => !jsIsSpace c)).reverse, ?_, ?_⟩
      · have hsplit : l.reverse.takeWhile (fun c => !jsIsSpace c) ++
            l.reverse.dropWhile (fun c => !jsIsSpace c) = l.reverse := by
          simp [List.takeWhile_append_dropWhile]
        rw [← ht]
        calc l = l.reverse.reverse := by simp
          _ = (l.reverse.takeWhile (fun c => !jsIsSpace c) ++
                l.reverse.dropWhile (fun c => !jsIsSpace c)).reverse := by rw [hsplit]
          _ = (l.reverse.dropWhile (fun c => !jsIsSpace c)).reverse ++
                (l.reverse.takeWhile (fun c => !jsIsSpace c)).reverse := by
                rw [List.reverse_append]
      · cases hdw : l.reverse.dropWhile (fun c => !jsIsSpace c) with
        | nil => left; simp [hdw]
        | cons d rdw =>
          right
          refine ⟨rdw.reverse, d, by simp, ?_⟩
          have := dropWhile_head_pred _ d rdw hdw
          simpa using this

/- ---------------------- Claim C10 ---------------------- -/

/-- Claim C10: a listing line that passes the keep filter but ends in a
whitespace character makes the final token match return no result, and
getFileListing then fails instead of returning an entry sequence. -/
theorem getFileListing_fails_on_trailing_space (doc l pre : List Char) (c : Char)
    (hmem : l ∈ keptLines doc) (hl : l = pre ++ [c]) (hc : jsIsSpace c = true) :
    finalToken l = none ∧ getFileListing doc = none := by
  have htok : finalToken l = none := by
    rw [finalToken, hl]
    have hrev : (pre ++ [c]).reverse = c :: pre.reverse := by simp
    rw [hrev, List.takeWhile]
    simp [hc]
  refine ⟨htok, ?_⟩
  exact mapOption_none_of_mem _ _ l hmem (by simp [toListingEntry, htok])

/-- Witness for C10 at a concrete listing document with a CRLF style kept
line: the run fails. -/
theorem getFileListing_fails_on_trailing_space_witness :
    finalToken (str "d ") = none ∧ getFileListing (str "d \nFoo.java") = none :=
  getFileListing_fails_on_trailing_space (str "d \nFoo.java") (str "d ") (str "d") ' '
    (by decide) (by decide) (by decide)

/- ---------------------- Claim C4 ---------------------- -/

/-- Counterexample to claim C4 as stated: the listing document consisting of
the single line d-space passes the keep filter, so the claim demands
exactly one returned entry for it, but getFileListing returns no entry
sequence at all because the final token extraction throws on the
trailing whitespace. -/
theorem getFileListing_total_counterexample :
    keepLine (str "d ") = true ∧ getFileListing (str "d ") = none := by
  constructor
  · decide
  · decide

/-- Claim C4, amended: for every listing document all of whose kept lines
end in a non whitespace character, getFileListing returns exactly one
entry per kept line, in document order, whose directory flag is true
exactly when the line starts with d and whose name is the final
whitespace-delimited token of the line. -/
theorem getFileListing_spec (doc : List Char)
    (h : ∀ l ∈ keptLines doc, ∃ pre c, l = pre ++ [c] ∧ jsIsSpace c = false) :
    ∃ es, getFileListing doc = some es ∧ List.Forall₂ entryMatches (keptLines doc) es := by
  rw [getFileListing]
  apply mapOption_forall₂
  intro l hl
  rcases h l hl with ⟨pre, c, hlc, hc⟩
  rcases finalToken_some_of_last (l := pre) hc with ⟨t, ht⟩
  rw [← hlc] at ht
  refine ⟨{ isDirectory := isDirectoryLine l, name := t }, ?_, ?_, ?_⟩
  · simp [toListingEntry, ht]
  · simp only [isDirectoryLine]
    exact beq_iff_eq
  · exact finalToken_isFinal ht

/-- Witness for the amended C4 on a concrete two line listing document. -/
theorem getFileListing_spec_witness :
    ∃ es, getFileListing (str "drwxr hi\nFoo.java") = some es ∧
      List.Forall₂ entryMatches (keptLines (str "drwxr hi\nFoo.java")) es := by
  apply getFileListing_spec
  intro l hl
  have hk : keptLines (str "drwxr hi\nFoo.java") = [str "drwxr hi", str "Foo.java"] := by
    decide
  rw [hk] at hl
  rcases List.mem_cons.1 hl with h1 | h1
  · exact ⟨str "drwxr h", 'i', by rw [h1]; decide, by decide⟩
  · have h2 : l = str "Foo.java" := by simpa using h1
    exact ⟨str "Foo.jav", 'a', by rw [h2]; decide, by decide⟩

/- ----------------- Global replace scan lemmas ----------------- -/

theorem replaceScanF_fuel {matcher} (hm : Shrinking matcher) :
    ∀ n m : Nat, ∀ s : List Char, s.length ≤ n → s.length ≤ m →
      replaceScanF matcher n s = replaceScanF matcher m s := by
  intro n
  induction n with
  | zero =>
    intro m s hn _
    have : s = [] := List.length_eq_zero.1 (Nat.le_zero.1 hn)
    subst this
    simp [replaceScanF]
  | succ n ih =>
    intro m s hn hm2
    cases s with
    | nil => simp [replaceScanF]
    | cons c rest =>
      have hm1 : 1 ≤ m := le_trans (by simp) hm2
      rcases Nat.exists_eq_add_of_le hm1 with ⟨m2, hm2eq⟩
      subst hm2eq
      rw [show 1 + m2 = m2 + 1 by omega]
      cases hmt : matcher (c :: rest) with
      | some x =>
        rcases x with ⟨mm, rep, r⟩
        have hr := hm _ _ _ _ hmt
        simp only [replaceScanF, hmt]
        rw [ih m2 r (by simp at hr hn ⊢; omega) (by simp at hr hm2 ⊢; omega)]
      | none =>
        simp only [replaceScanF, hmt]
        rw [ih m2 rest (by simp at hn ⊢; omega) (by simp at hm2 ⊢; omega)]

theorem replaceScan_step {matcher} (hm : Shrinking matcher) {s m rep r : List Char}
    (h : matcher s = some (m, rep, r)) :
    replaceScan matcher s = rep ++ replaceScan matcher r := by
  cases s with
  | nil =>
    have := hm _ _ _ _ h
    simp at this
  | cons c rest =>
    have hr := hm _ _ _ _ h
    rw [replaceScan]
    simp only [List.length_cons, replaceScanF, h]
    rw [replaceScan]
    rw [replaceScanF_fuel hm rest.length r.length r (by simp at hr; omega) (le_refl _)]

theorem replaceScan_nomatch {matcher} {c : Char} {rest : List Char}
    (h : matcher (c :: rest) = none) :
    replaceScan matcher (c :: rest) = c :: replaceScan matcher rest := by
  rw [replaceScan]
  simp only [List.length_cons, replaceScanF, h]
  rw [replaceScan]

/- ----------------- Shrinking facts for the matchers ----------------- -/

theorem trySep_sound {parts : List (List Char)} {sep s m sp r : List Char}
    (h : trySep parts sep s = some (m, sp, r)) :
    m = joinSep sep parts ∧ sp = sep ∧ s = m ++ r := by
  rw [trySep] at h
  cases he : eatLit (joinSep sep parts) s with
  | none => rw [he] at h; cases h
  | some r2 =>
    rw [he] at h
    rcases h with ⟨⟩
    exact ⟨rfl, rfl, eatLit_sound _ _ _ he⟩

theorem tryMatchPkg_sound {parts : List (List Char)} {s m sp r : List Char}
    (h : tryMatchPkg parts s = some (m, sp, r)) :
    (∃ sep ∈ seps4, m = joinSep sep parts ∧ sp = sep) ∧ s = m ++ r := by
  rw [tryMatchPkg] at h
  cases h1 : trySep parts ['.'] s with
  | some x =>
    rw [h1] at h
    rcases h with ⟨⟩
    rcases trySep_sound h1 with ⟨hm, hsp, hs⟩
    exact ⟨⟨['.'], by simp [seps4], hm, hsp⟩, hs⟩
  | none =>
    rw [h1] at h
    cases h2 : trySep parts ['/'] s with
    | some x =>
      rw [h2] at h
      rcases h with ⟨⟩
      rcases trySep_sound h2 with ⟨hm, hsp, hs⟩
      exact ⟨⟨['/'], by simp [seps4], hm, hsp⟩, hs⟩
    | none =>
      rw [h2] at h
      cases h3 : trySep parts ['\\'] s with
      | some x =>
        rw [h3] at h
        rcases h with ⟨⟩
        rcases trySep_sound h3 with ⟨hm, hsp, hs⟩
        exact ⟨⟨['\\'], by simp [seps4], hm, hsp⟩, hs⟩
      | none =>
        rw [h3] at h
        rcases trySep_sound h with ⟨hm, hsp, hs⟩
        exact ⟨⟨['\\', '\\'], by simp [seps4], hm, hsp⟩, hs⟩

theorem matchGervillAt_sound {s m sp r : List Char}
    (h : matchGervillAt s = some (m, sp, r)) :
    s = m ++ r ∧ 0 < m.length := by
  rw [matchGervillAt, packages, matchPackagesAt] at h
  cases h1 : tryMatchPkg (splitOnChar '.' (str "javax.sound")) s with
  | some x =>
    rw [h1] at h
    rcases h with ⟨⟩
    rcases tryMatchPkg_sound h1 with ⟨⟨sep, hsep, hm, _⟩, hs⟩
    refine ⟨hs, ?_⟩
    rw [hm]
    fin_cases hsep <;> decide
  | none =>
    rw [h1] at h
    rw [matchPackagesAt] at h
    cases h2 : tryMatchPkg (splitOnChar '.' (str "com.sun.media.sound")) s with
    | some x =>
      rw [h2] at h
      rcases h with ⟨⟩
      rcases tryMatchPkg_sound h2 with ⟨⟨sep, hsep, hm, _⟩, hs⟩
      refine ⟨hs, ?_⟩
      rw [hm]
      fin_cases hsep <;> decide
    | none =>
      rw [h2, matchPackagesAt] at h
      cases h

theorem gervillMatcher_shrinking : Shrinking gervillMatcher := by
  intro s m rep r h
  rw [gervillMatcher] at h
  cases hg : matchGervillAt s with
  | none => rw [hg] at h; cases h
  | some x =>
    rcases x with ⟨m2, sep2, r2⟩
    rw [hg] at h
    rcases h with ⟨⟩
    rcases matchGervillAt_sound hg with ⟨hs, hlen⟩
    rw [hs]
    simp
    omega

/- ----------------- Matcher computation helpers ----------------- -/

theorem eatLit_extend_none : ∀ p q : List Char, p.length ≤ q.length →
    eatLit p q = none → ∀ r, eatLit p (q ++ r) = none := by
  intro p
  induction p with
  | nil => intro q _ h; simp [eatLit] at h
  | cons a p ih =>
    intro q hlen h r
    cases q with
    | nil => simp at hlen
    | cons b q =>
      simp only [eatLit] at h ⊢
      by_cases hab : a = b
      · simp only [if_pos hab] at h ⊢
        exact ih q (by simpa using hlen) h r
      · simp [if_neg hab]

theorem tryMatchPkg_dot {parts : List (List Char)} {s r : List Char}
    (h : eatLit (joinSep ['.'] parts) s = some r) :
    tryMatchPkg parts s = some (joinSep ['.'] parts, ['.'], r) := by
  simp only [tryMatchPkg, trySep, h]

theorem tryMatchPkg_slash {parts : List (List Char)} {s r : List Char}
    (h1 : eatLit (joinSep ['.'] parts) s = none)
    (h : eatLit (joinSep ['/'] parts) s = some r) :
    tryMatchPkg parts s = some (joinSep ['/'] parts, ['/'], r) := by
  simp only [tryMatchPkg, trySep, h1, h]

theorem tryMatchPkg_bslash {parts : List (List Char)} {s r : List Char}
    (h1 : eatLit (joinSep ['.'] parts) s = none)
    (h2 : eatLit (joinSep ['/'] parts) s = none)
    (h : eatLit (joinSep ['\\'] parts) s = some r) :
    tryMatchPkg parts s = some (joinSep ['\\'] parts, ['\\'], r) := by
  simp only [tryMatchPkg, trySep, h1, h2, h]

theorem tryMatchPkg_none {parts : List (List Char)} {s : List Char}
    (h1 : eatLit (joinSep ['.'] parts) s = none)
    (h2 : eatLit (joinSep ['/'] parts) s = none)
    (h3 : eatLit (joinSep ['\\'] parts) s = none)
    (h4 : eatLit (joinSep ['\\', '\\'] parts) s = none) :
    tryMatchPkg parts s = none := by
  simp only [tryMatchPkg, trySep, h1, h2, h3, h4]

theorem matchGervillAt_javax {s : List Char} {x : List Char × List Char × List Char}
    (hx : tryMatchPkg (splitOnChar '.' (str "javax.sound")) s = some x) :
    matchGervillAt s = some x := by
  simp only [matchGervillAt, packages, matchPackagesAt, hx]

theorem matchGervillAt_com {s : List Char} {x : List Char × List Char × List Char}
    (h1 : tryMatchPkg (splitOnChar '.' (str "javax.sound")) s = none)
    (hx : tryMatchPkg (splitOnChar '.' (str "com.sun.media.sound")) s = some x) :
    matchGervillAt s = some x := by
  simp only [matchGervillAt, packages, matchPackagesAt, h1, hx]

theorem gervillMatcher_of_match {s : List Char} {m sep r : List Char}
    (h : matchGervillAt s = some (m, sep, r)) :
    gervillMatcher s = some (m, gervillReplacer sep m, r) := by
  simp only [gervillMatcher, h]

/- ----------- Matches at an arbitrary position: extension laws ----------- -/

theorem eatLit_some_extend : ∀ p s r x : List Char,
    eatLit p s = some r → eatLit p (s ++ x) = some (r ++ x) := by
  intro p
  induction p with
  | nil =>
    intro s r x h
    simp [eatLit] at h
    simp [eatLit, h]
  | cons a p ih =>
    intro s r x h
    cases s with
    | nil => simp [eatLit] at h
    | cons b s =>
      rw [List.cons_append]
      simp only [eatLit] at h ⊢
      by_cases hab : a = b
      · rw [if_pos hab] at h ⊢
        exact ih s r x h
      · rw [if_neg hab] at h
        cases h

theorem eatLit_none_restrict {p s x : List Char} (h : eatLit p (s ++ x) = none) :
    eatLit p s = none := by
  cases he : eatLit p s with
  | none => rfl
  | some r => rw [eatLit_some_extend p s r x he] at h; cases h

theorem eatLit_some_restrict : ∀ p s x r2 : List Char,
    eatLit p (s ++ x) = some r2 → p.length ≤ s.length →
    ∃ r, eatLit p s = some r ∧ r2 = r ++ x := by
  intro p
  induction p with
  | nil =>
    intro s x r2 h _
    simp [eatLit] at h
    exact ⟨s, rfl, h.symm⟩
  | cons a p ih =>
    intro s x r2 h hlen
    cases s with
    | nil => simp at hlen
    | cons b s =>
      rw [List.cons_append] at h
      simp only [eatLit] at h ⊢
      by_cases hab : a = b
      · rw [if_pos hab] at h ⊢
        exact ih s x r2 h (by simpa using hlen)
      · rw [if_neg hab] at h
        cases h

theorem append_overlap_split {a b x c2 : List Char} (hlen : b.length ≤ a.length)
    (h : a ++ x = b ++ c2) : ∃ r, a = b ++ r ∧ c2 = r ++ x := by
  have hb : b <+: a ++ x := ⟨c2, h.symm⟩
  have ha : a <+: a ++ x := List.prefix_append a x
  rcases List.prefix_of_prefix_length_le hb ha hlen with ⟨r, hr⟩
  refine ⟨r, hr.symm, ?_⟩
  rw [← hr, List.append_assoc] at h
  exact (List.append_cancel_left h).symm

theorem trySep_some_extend {parts : List (List Char)} {sep s m sp r : List Char}
    (x : List Char) (h : trySep parts sep s = some (m, sp, r)) :
    trySep parts sep (s ++ x) = some (m, sp, r ++ x) := by
  rw [trySep] at h ⊢
  cases he : eatLit (joinSep sep parts) s with
  | none => rw [he] at h; cases h
  | some r0 =>
    rw [he] at h
    rcases h with ⟨⟩
    rw [eatLit_some_extend _ _ _ x he]

theorem trySep_none_restrict {parts : List (List Char)} {sep s x : List Char}
    (h : trySep parts sep (s ++ x) = none) : trySep parts sep s = none := by
  cases ht : trySep parts sep s with
  | none => rfl
  | some y =>
    rcases y with ⟨m, sp, r⟩
    rw [trySep_some_extend x ht] at h
    cases h

theorem trySep_restrict {parts : List (List Char)} {sep s x m sp r2 : List Char}
    (h : trySep parts sep (s ++ x) = some (m, sp, r2)) (hlen : m.length ≤ s.length) :
    ∃ r, trySep parts sep s = some (m, sp, r) ∧ r2 = r ++ x := by
  rw [trySep] at h
  cases he : eatLit (joinSep sep parts) (s ++ x) with
  | none => rw [he] at h; cases h
  | some r0 =>
    rw [he] at h
    rcases h with ⟨⟩
    rcases eatLit_some_restrict _ _ _ _ he hlen with ⟨r, hr, hr2⟩
    refine ⟨r, ?_, hr2⟩
    rw [trySep, hr]

theorem tryMatchPkg_none_restrict {parts : List (List Char)} {s x : List Char}
    (h : tryMatchPkg parts (s ++ x) = none) : tryMatchPkg parts s = none := by
  rw [tryMatchPkg] at h ⊢
  cases h1 : trySep parts ['.'] (s ++ x) with
  | some y => rw [h1] at h; cases h
  | none =>
    rw [h1] at h
    rw [trySep_none_restrict h1]
    cases h2 : trySep parts ['/'] (s ++ x) with
    | some y => rw [h2] at h; cases h
    | none =>
      rw [h2] at h
      rw [trySep_none_restrict h2]
      cases h3 : trySep parts ['\\'] (s ++ x) with
      | some y => rw [h3] at h; cases h
      | none =>
        rw [h3] at h
        rw [trySep_none_restrict h3]
        exact trySep_none_restrict h

theorem tryMatchPkg_restrict {parts : List (List Char)} {s x m sp r2 : List Char}
    (h : tryMatchPkg parts (s ++ x) = some (m, sp, r2)) (hlen : m.length ≤ s.length) :
    ∃ r, tryMatchPkg parts s = some (m, sp, r) ∧ r2 = r ++ x := by
  rw [tryMatchPkg] at h ⊢
  cases h1 : trySep parts ['.'] (s ++ x) with
  | some y =>
    rcases y with ⟨m1, sp1, r1⟩
    rw [h1] at h
    rcases h with ⟨⟩
    rcases trySep_restrict h1 hlen with ⟨r, hr, hr2⟩
    exact ⟨r, by rw [hr], hr2⟩
  | none =>
    rw [h1] at h
    rw [trySep_none_restrict h1]
    cases h2 : trySep parts ['/'] (s ++ x) with
    | some y =>
      rcases y with ⟨m1, sp1, r1⟩
      rw [h2] at h
      rcases h with ⟨⟩
      rcases trySep_restrict h2 hlen with ⟨r, hr, hr2⟩
      exact ⟨r, by rw [hr], hr2⟩
    | none =>
      rw [h2] at h
      rw [trySep_none_restrict h2]
      cases h3 : trySep parts ['\\'] (s ++ x) with
      | some y =>
        rcases y with ⟨m1, sp1, r1⟩
        rw [h3] at h
        rcases h with ⟨⟩
        rcases trySep_restrict h3 hlen with ⟨r, hr, hr2⟩
        exact ⟨r, by rw [hr], hr2⟩
      | none =>
        rw [h3] at h
        rw [trySep_none_restrict h3]
        rcases trySep_restrict h hlen with ⟨r, hr, hr2⟩
        exact ⟨r, by rw [hr], hr2⟩

theorem matchPackagesAt_none_restrict : ∀ (pkgs : List (List Char)) {s x : List Char},
    matchPackagesAt pkgs (s ++ x) = none → matchPackagesAt pkgs s = none := by
  intro pkgs
  induction pkgs with
  | nil => intro s x _; rfl
  | cons pkg more ih =>
    intro s x h
    rw [matchPackagesAt] at h ⊢
    cases h1 : tryMatchPkg (splitOnChar '.' pkg) (s ++ x) with
    | some y => rw [h1] at h; cases h
    | none =>
      rw [h1] at h
      rw [tryMatchPkg_none_restrict h1]
      exact ih h

theorem matchPackagesAt_restrict : ∀ (pkgs : List (List Char)) {s x m sp r2 : List Char},
    matchPackagesAt pkgs (s ++ x) = some (m, sp, r2) → m.length ≤ s.length →
    ∃ r, matchPackagesAt pkgs s = some (m, sp, r) ∧ r2 = r ++ x := by
  intro pkgs
  induction pkgs with
  | nil => intro s x m sp r2 h _; simp [matchPackagesAt] at h
  | cons pkg more ih =>
    intro s x m sp r2 h hlen
    rw [matchPackagesAt] at h ⊢
    cases h1 : tryMatchPkg (splitOnChar '.' pkg) (s ++ x) with
    | some y =>
      rcases y with ⟨m1, sp1, r1⟩
      rw [h1] at h
      rcases h with ⟨⟩
      rcases tryMatchPkg_restrict h1 hlen with ⟨r, hr, hr2⟩
      exact ⟨r, by rw [hr], hr2⟩
    | none =>
      rw [h1] at h
      rw [tryMatchPkg_none_restrict h1]
      exact ih h hlen

theorem matchGervillAt_none_restrict {s x : List Char}
    (h : matchGervillAt (s ++ x) = none) : matchGervillAt s = none :=
  matchPackagesAt_none_restrict packages h

theorem matchGervillAt_restrict {s x m sp r2 : List Char}
    (h : matchGervillAt (s ++ x) = some (m, sp, r2)) (hlen : m.length ≤ s.length) :
    ∃ r, matchGervillAt s = some (m, sp, r) ∧ r2 = r ++ x :=
  matchPackagesAt_restrict packages h hlen

theorem matchGervillAt_text {s m sp r : List Char}
    (h : matchGervillAt s = some (m, sp, r)) :
    m ∈ gervillMatchTexts ∧ s = m ++ r := by
  rw [matchGervillAt, packages, matchPackagesAt] at h
  cases h1 : tryMatchPkg (splitOnChar '.' (str "javax.sound")) s with
  | some y =>
    rw [h1] at h
    rcases h with ⟨⟩
    rcases tryMatchPkg_sound h1 with ⟨⟨sep, hsep, hm, _⟩, hs⟩
    refine ⟨?_, hs⟩
    rw [hm]
    fin_cases hsep <;> decide
  | none =>
    rw [h1, matchPackagesAt] at h
    cases h2 : tryMatchPkg (splitOnChar '.' (str "com.sun.media.sound")) s with
    | some y =>
      rw [h2] at h
      rcases h with ⟨⟩
      rcases tryMatchPkg_sound h2 with ⟨⟨sep, hsep, hm, _⟩, hs⟩
      refine ⟨?_, hs⟩
      rw [hm]
      fin_cases hsep <;> decide
    | none =>
      rw [h2, matchPackagesAt] at h
      cases h

/- No text the pattern can match straddles the boundary of an occurrence
of a single separator match text: no nonempty proper suffix of any of the
eight match texts is prefix related to any of the six claim texts. -/
theorem gervill_no_straddle_check :
    ∀ m ∈ gervillMatchTexts, ∀ M ∈ gervillSingleSepTexts,
      ∀ L ∈ List.range m.length, 1 ≤ L →
        ¬ (m.drop L) <+: M ∧ ¬ M <+: (m.drop L) := by decide

/- A match found while scanning text that ends exactly where a claim text
occurrence begins lies entirely inside that earlier text. -/
theorem matchGervill_within {pre1 M post m sp r2 : List Char}
    (hM : M ∈ gervillSingleSepTexts) (hpre : pre1 ≠ [])
    (h : matchGervillAt (pre1 ++ (M ++ post)) = some (m, sp, r2)) :
    m.length ≤ pre1.length := by
  by_contra hcon
  push_neg at hcon
  rcases matchGervillAt_text h with ⟨hm8, hs⟩
  have hL1 : 0 < pre1.length := List.length_pos.2 hpre
  have hdrop : M ++ post = m.drop pre1.length ++ r2 := by
    have h2 := congrArg (List.drop pre1.length) hs
    rw [List.drop_left, List.drop_append_eq_append_drop,
      Nat.sub_eq_zero_of_le (le_of_lt hcon), List.drop_zero] at h2
    exact h2
  have hcheck := gervill_no_straddle_check m hm8 M hM pre1.length
    (List.mem_range.2 hcon) hL1
  by_cases hc : (m.drop pre1.length).length ≤ M.length
  · exact hcheck.1 (List.prefix_of_prefix_length_le ⟨r2, hdrop.symm⟩
      (List.prefix_append M post) hc)
  · push_neg at hc
    exact hcheck.2 (List.prefix_of_prefix_length_le (List.prefix_append M post)
      ⟨r2, hdrop.symm⟩ (le_of_lt hc))

theorem gervillMatcher_none_of {s : List Char} (h : matchGervillAt s = none) :
    gervillMatcher s = none := by
  rw [gervillMatcher, h]

theorem replaceGervill_step {s m rep r : List Char}
    (h : gervillMatcher s = some (m, rep, r)) :
    replaceGervill s = rep ++ replaceGervill r :=
  replaceScan_step gervillMatcher_shrinking h

theorem replaceGervill_nomatch {c : Char} {rest : List Char}
    (h : gervillMatcher (c :: rest) = none) :
    replaceGervill (c :: rest) = c :: replaceGervill rest :=
  replaceScan_nomatch h

/- The head of the scan fires on a claim text occurrence at the current
position, for each of the six separator and package combinations. -/
theorem gervillMatcher_at_head (sep : Char) (pkg rest : List Char)
    (hsep : sep = '.' ∨ sep = '/' ∨ sep = '\\') (hpkg : pkg ∈ packages) :
    gervillMatcher (joinSep [sep] (splitOnChar '.' pkg) ++ rest) =
      some (joinSep [sep] (splitOnChar '.' pkg),
        gervillReplacer [sep] (joinSep [sep] (splitOnChar '.' pkg)), rest) := by
  have hpkg2 : pkg = str "javax.sound" ∨ pkg = str "com.sun.media.sound" := by
    simpa [packages] using hpkg
  rcases hpkg2 with hp | hp <;> rcases hsep with hs | hs | hs <;> subst hp <;> subst hs
  · exact gervillMatcher_of_match (matchGervillAt_javax (tryMatchPkg_dot
      (eatLit_append (joinSep ['.'] (splitOnChar '.' (str "javax.sound"))) rest)))
  · exact gervillMatcher_of_match (matchGervillAt_javax (tryMatchPkg_slash
      (eatLit_extend_none _ _ (by decide) (by decide) rest)
      (eatLit_append (joinSep ['/'] (splitOnChar '.' (str "javax.sound"))) rest)))
  · exact gervillMatcher_of_match (matchGervillAt_javax (tryMatchPkg_bslash
      (eatLit_extend_none _ _ (by decide) (by decide) rest)
      (eatLit_extend_none _ _ (by decide) (by decide) rest)
      (eatLit_append (joinSep ['\\'] (splitOnChar '.' (str "javax.sound"))) rest)))
  · exact gervillMatcher_of_match (matchGervillAt_com
      (@tryMatchPkg_none (splitOnChar '.' (str "javax.sound"))
        (joinSep ['.'] (splitOnChar '.' (str "com.sun.media.sound")) ++ rest)
        (eatLit_extend_none _ _ (by decide) (by decide) rest)
        (eatLit_extend_none _ _ (by decide) (by decide) rest)
        (eatLit_extend_none _ _ (by decide) (by decide) rest)
        (eatLit_extend_none _ _ (by decide) (by decide) rest))
      (tryMatchPkg_dot
        (eatLit_append (joinSep ['.'] (splitOnChar '.' (str "com.sun.media.sound"))) rest)))
  · exact gervillMatcher_of_match (matchGervillAt_com
      (@tryMatchPkg_none (splitOnChar '.' (str "javax.sound"))
        (joinSep ['/'] (splitOnChar '.' (str "com.sun.media.sound")) ++ rest)
        (eatLit_extend_none _ _ (by decide) (by decide) rest)
        (eatLit_extend_none _ _ (by decide) (by decide) rest)
        (eatLit_extend_none _ _ (by decide) (by decide) rest)
        (eatLit_extend_none _ _ (by decide) (by decide) rest))
      (tryMatchPkg_slash
        (eatLit_extend_none _ _ (by decide) (by decide) rest)
        (eatLit_append (joinSep ['/'] (splitOnChar '.' (str "com.sun.media.sound"))) rest)))
  · exact gervillMatcher_of_match (matchGervillAt_com
      (@tryMatchPkg_none (splitOnChar '.' (str "javax.sound"))
        (joinSep ['\\'] (splitOnChar '.' (str "com.sun.media.sound")) ++ rest)
        (eatLit_extend_none _ _ (by decide) (by decide) rest)
        (eatLit_extend_none _ _ (by decide) (by decide) rest)
        (eatLit_extend_none _ _ (by decide) (by decide) rest)
        (eatLit_extend_none _ _ (by decide) (by decide) rest))
      (tryMatchPkg_bslash
        (eatLit_extend_none _ _ (by decide) (by decide) rest)
        (eatLit_extend_none _ _ (by decide) (by decide) rest)
        (eatLit_append (joinSep ['\\'] (splitOnChar '.' (str "com.sun.media.sound"))) rest)))

/- The rewrite of a content holding a claim text occurrence at any
position: the scan rewrites the earlier text, replaces the occurrence,
then rewrites the rest, by strong induction on the earlier text. -/
theorem replaceGervill_append_aux :
    ∀ (n : Nat) (pre : List Char), pre.length ≤ n →
      ∀ (sep : Char) (pkg post : List Char),
        sep = '.' ∨ sep = '/' ∨ sep = '\\' → pkg ∈ packages →
        replaceGervill (pre ++ (joinSep [sep] (splitOnChar '.' pkg) ++ post)) =
          replaceGervill pre ++
            (str "gervill" ++ sep :: (joinSep [sep] (splitOnChar '.' pkg) ++
              replaceGervill post)) := by
  intro n
  induction n with
  | zero =>
    intro pre hn sep pkg post hsep hpkg
    have hnil : pre = [] := List.length_eq_zero.1 (Nat.le_zero.1 hn)
    subst hnil
    rw [List.nil_append,
      replaceGervill_step (gervillMatcher_at_head sep pkg post hsep hpkg)]
    simp [gervillReplacer, replaceGervill, replaceScan, replaceScanF]
  | succ n ih =>
    intro pre hn sep pkg post hsep hpkg
    cases pre with
    | nil => exact ih [] (by simp) sep pkg post hsep hpkg
    | cons c pre2 =>
      have hM6 : joinSep [sep] (splitOnChar '.' pkg) ∈ gervillSingleSepTexts := by
        have hpkg2 : pkg = str "javax.sound" ∨ pkg = str "com.sun.media.sound" := by
          simpa [packages] using hpkg
        rcases hpkg2 with hp | hp <;> rcases hsep with hs | hs | hs <;>
          subst hp <;> subst hs <;> decide
      cases hmat : matchGervillAt ((c :: pre2) ++
          (joinSep [sep] (splitOnChar '.' pkg) ++ post)) with
      | none =>
        have hstand : matchGervillAt (c :: pre2) = none := matchGervillAt_none_restrict hmat
        have hg1 : gervillMatcher (c :: (pre2 ++
            (joinSep [sep] (splitOnChar '.' pkg) ++ post))) = none :=
          gervillMatcher_none_of hmat
        have hg2 : gervillMatcher (c :: pre2) = none := gervillMatcher_none_of hstand
        rw [List.cons_append, replaceGervill_nomatch hg1,
          ih pre2 (by simp only [List.length_cons] at hn; omega) sep pkg post hsep hpkg,
          replaceGervill_nomatch hg2]
        simp
      | some y =>
        rcases y with ⟨m, sp, r2⟩
        have hwithin : m.length ≤ (c :: pre2).length :=
          matchGervill_within hM6 (by simp) hmat
        rcases matchGervillAt_restrict hmat hwithin with ⟨r, hstand, hr2⟩
        have hsplit := (matchGervillAt_sound hstand).1
        have hmpos := (matchGervillAt_sound hstand).2
        have hrlen : r.length ≤ n := by
          have hlen2 : (c :: pre2).length = m.length + r.length := by
            rw [hsplit]; simp
          simp only [List.length_cons] at hn hlen2
          omega
        rw [replaceGervill_step (gervillMatcher_of_match hmat), hr2,
          ih r hrlen sep pkg post hsep hpkg,
          replaceGervill_step (gervillMatcher_of_match hstand)]
        simp

/- ---------------------- Claim C1 ---------------------- -/

/-- Claim C1: for every content and every occurrence anywhere in it of a
configured package name written with one of the three separator
characters, the same at every position, the renaming pass of
createFileCopies replaces that occurrence by the literal gervill, the
captured separator, then the matched text unchanged, rewriting the text
before and after the occurrence by the same scan; in particular a java
source line importing javax.sound.midi gains the gervill prefix and the
renamed copy of the content javax.sound is gervill.javax.sound. -/
theorem claim1_gervill_package_rename :
    (∀ (pre : List Char) (sep : Char) (pkg post : List Char),
      sep = '.' ∨ sep = '/' ∨ sep = '\\' → pkg ∈ packages →
      replaceGervill (pre ++ (joinSep [sep] (splitOnChar '.' pkg) ++ post)) =
        replaceGervill pre ++
          (str "gervill" ++ sep :: (joinSep [sep] (splitOnChar '.' pkg) ++
            replaceGervill post))) ∧
    newFileContent (str "import javax.sound.midi;") =
      str "import gervill.javax.sound.midi;" ∧
    newFileContent (str "javax.sound") = str "gervill.javax.sound" := by
  refine ⟨?_, by decide, by decide⟩
  intro pre sep pkg post hsep hpkg
  exact replaceGervill_append_aux pre.length pre (le_refl _) sep pkg post hsep hpkg

/-- Witness for C1: a dot separated occurrence of the first package
preceded by other text, instantiated concretely. -/
theorem claim1_gervill_package_rename_witness :
    replaceGervill (str "import " ++
        (joinSep ['.'] (splitOnChar '.' (str "javax.sound")) ++ str ";")) =
      replaceGervill (str "import ") ++
        (str "gervill" ++ '.' :: (joinSep ['.'] (splitOnChar '.' (str "javax.sound")) ++
          replaceGervill (str ";"))) :=
  claim1_gervill_package_rename.1 (str "import ") '.' (str "javax.sound") (str ";")
    (Or.inl rfl) (by decide)

/- ----------------- Doc tag matcher lemmas ----------------- -/

theorem eatLit_ne_head {a b : Char} {p s : List Char} (h : a ≠ b) :
    eatLit (a :: p) (b :: s) = none := by
  simp [eatLit, h]

theorem linkAlt_eq_some {s t : List Char} (he : eatLit (str "\x7b@link") s = some t) :
    linkAlt s = linkInner (t.takeWhile notBrace) (t.dropWhile notBrace) := by
  rw [linkAlt, he]

theorem linkAlt_eq_none {s : List Char} (he : eatLit (str "\x7b@link") s = none) :
    linkAlt s = none := by
  rw [linkAlt, he]

theorem docTagMatcher_link {s : List Char} {x : List Char × List Char × List Char}
    (hl : linkAlt s = some x) : docTagMatcher s = some x := by
  rw [docTagMatcher, hl]

theorem docTagMatcher_tag {s : List Char} (hl : linkAlt s = none) :
    docTagMatcher s = tagAlt s := by
  rw [docTagMatcher, hl]

theorem tagAlt_throws {s r : List Char} (ht : eatLit (str "@throws") s = some r) :
    tagAlt s = some (str "@throws", str "throws", r) := by
  rw [tagAlt, ht]

theorem tagAlt_see {s r : List Char} (h1 : eatLit (str "@throws") s = none)
    (h2 : eatLit (str "@see") s = some r) :
    tagAlt s = some (str "@see", str "see", r) := by
  rw [tagAlt, h1, h2]

theorem linkAlt_sound {s m rep r : List Char} (h : linkAlt s = some (m, rep, r)) :
    r.length < s.length := by
  cases he : eatLit (str "\x7b@link") s with
  | none => rw [linkAlt_eq_none he] at h; cases h
  | some t =>
    rw [linkAlt_eq_some he] at h
    cases htw : t.takeWhile notBrace with
    | nil => rw [htw] at h; simp [linkInner] at h
    | cons i inner2 =>
      cases hdw : t.dropWhile notBrace with
      | nil => rw [htw, hdw] at h; simp [linkInner] at h
      | cons d r2 =>
        rw [htw, hdw] at h
        simp only [linkInner] at h
        by_cases hd : d = '\x7d'
        · rw [if_pos hd] at h
          rcases h with ⟨⟩
          have hs := eatLit_sound _ _ _ he
          have hts : t = (i :: inner2) ++ d :: r := by
            rw [← htw, ← hdw]
            simp [List.takeWhile_append_dropWhile]
          have h6 : (str "\x7b@link").length = 6 := by decide
          rw [hs, hts]
          simp [h6]
          omega
        · rw [if_neg hd] at h
          cases h

theorem tagAlt_sound {s m rep r : List Char} (h : tagAlt s = some (m, rep, r)) :
    r.length < s.length := by
  cases ht : eatLit (str "@throws") s with
  | some r2 =>
    rw [tagAlt_throws ht] at h
    rcases h with ⟨⟩
    have hs := eatLit_sound _ _ _ ht
    have h7 : (str "@throws").length = 7 := by decide
    rw [hs]
    simp [h7]
  | none =>
    cases hs2 : eatLit (str "@see") s with
    | some r2 =>
      rw [tagAlt_see ht hs2] at h
      rcases h with ⟨⟩
      have hs := eatLit_sound _ _ _ hs2
      have h4 : (str "@see").length = 4 := by decide
      rw [hs]
      simp [h4]
    | none =>
      rw [tagAlt, ht, hs2] at h
      cases h

theorem docTagMatcher_shrinking : Shrinking docTagMatcher := by
  intro s m rep r h
  cases hl : linkAlt s with
  | some x =>
    rcases x with ⟨m2, rep2, r2⟩
    rw [docTagMatcher_link hl] at h
    rcases h with ⟨⟩
    exact linkAlt_sound hl
  | none =>
    rw [docTagMatcher_tag hl] at h
    exact tagAlt_sound h

/- --------- Doc tag matches at an arbitrary position --------- -/

theorem linkInner_some {inner rest2 m rep r : List Char}
    (h : linkInner inner rest2 = some (m, rep, r)) :
    inner ≠ [] ∧ rest2 = '\x7d' :: r ∧
      m = str "\x7b@link" ++ inner ++ ['\x7d'] ∧ rep = inner := by
  cases inner with
  | nil => simp [linkInner] at h
  | cons i inn2 =>
    cases rest2 with
    | nil => simp [linkInner] at h
    | cons d r2 =>
      simp only [linkInner] at h
      by_cases hd : d = '\x7d'
      · rw [if_pos hd] at h
        rcases h with ⟨⟩
        subst hd
        exact ⟨by simp, rfl, rfl, rfl⟩
      · rw [if_neg hd] at h
        cases h

theorem linkAlt_cases {s m rep r : List Char} (h : linkAlt s = some (m, rep, r)) :
    ∃ inner, inner ≠ [] ∧ (∀ c ∈ inner, notBrace c = true) ∧
      m = str "\x7b@link" ++ inner ++ ['\x7d'] ∧ rep = inner ∧ s = m ++ r := by
  cases he : eatLit (str "\x7b@link") s with
  | none => rw [linkAlt_eq_none he] at h; cases h
  | some t =>
    rw [linkAlt_eq_some he] at h
    rcases linkInner_some h with ⟨hne, hdw, hm, hrep⟩
    refine ⟨t.takeWhile notBrace, hne, fun c hc => mem_takeWhile_pred _ c hc, hm, hrep, ?_⟩
    have hs := eatLit_sound _ _ _ he
    have ht0 : t.takeWhile notBrace ++ t.dropWhile notBrace = t := by
      simp [List.takeWhile_append_dropWhile]
    have ht : t = t.takeWhile notBrace ++ '\x7d' :: r := by
      conv_lhs => rw [← ht0]
      rw [hdw]
    rw [hs, ht, hm]
    simp

theorem linkAlt_some_extend {s m rep r : List Char} (x : List Char)
    (h : linkAlt s = some (m, rep, r)) :
    linkAlt (s ++ x) = some (m, rep, r ++ x) := by
  rcases linkAlt_cases h with ⟨inner, hne, hnb, hm, hrep, hs⟩
  rw [hs, hm, hrep]
  have he : eatLit (str "\x7b@link") ((str "\x7b@link" ++ inner ++ ['\x7d']) ++ r ++ x) =
      some (inner ++ '\x7d' :: (r ++ x)) := by
    have e : (str "\x7b@link" ++ inner ++ ['\x7d']) ++ r ++ x =
        str "\x7b@link" ++ (inner ++ '\x7d' :: (r ++ x)) := by simp
    rw [e]
    exact eatLit_append _ _
  rw [linkAlt_eq_some he]
  have htd := takeWhile_all_append (p := notBrace) (b := '\x7d') inner (r ++ x) hnb (by decide)
  rw [htd.1, htd.2]
  cases inner with
  | nil => exact absurd rfl hne
  | cons i inn2 => simp [linkInner]

theorem linkAlt_none_restrict {s x : List Char} (h : linkAlt (s ++ x) = none) :
    linkAlt s = none := by
  cases hl : linkAlt s with
  | none => rfl
  | some y =>
    rcases y with ⟨m, rep, r⟩
    rw [linkAlt_some_extend x hl] at h
    cases h

theorem tagAlt_cases {s m rep r : List Char} (h : tagAlt s = some (m, rep, r)) :
    ((m = str "@throws" ∧ rep = str "throws") ∨ (m = str "@see" ∧ rep = str "see")) ∧
      s = m ++ r := by
  rw [tagAlt] at h
  cases ht : eatLit (str "@throws") s with
  | some r0 =>
    rw [ht] at h
    rcases h with ⟨⟩
    exact ⟨Or.inl ⟨rfl, rfl⟩, eatLit_sound _ _ _ ht⟩
  | none =>
    rw [ht] at h
    cases hs2 : eatLit (str "@see") s with
    | some r0 =>
      rw [hs2] at h
      rcases h with ⟨⟩
      exact ⟨Or.inr ⟨rfl, rfl⟩, eatLit_sound _ _ _ hs2⟩
    | none => rw [hs2] at h; cases h

theorem tagAlt_some_extend {s m rep r : List Char} (x : List Char)
    (h : tagAlt s = some (m, rep, r)) :
    tagAlt (s ++ x) = some (m, rep, r ++ x) := by
  rw [tagAlt] at h
  cases ht : eatLit (str "@throws") s with
  | some r0 =>
    rw [ht] at h
    rcases h with ⟨⟩
    rw [tagAlt, eatLit_some_extend _ _ _ x ht]
  | none =>
    rw [ht] at h
    cases hs2 : eatLit (str "@see") s with
    | some r0 =>
      rw [hs2] at h
      rcases h with ⟨⟩
      have hseq := eatLit_sound _ _ _ hs2
      subst hseq
      have htn : eatLit (str "@throws") ((str "@see" ++ r) ++ x) = none := by
        have e1 : str "@throws" = '@' :: 't' :: str "hrows" := rfl
        have e2 : (str "@see" ++ r) ++ x = '@' :: 's' :: (str "ee" ++ (r ++ x)) := rfl
        rw [e1, e2]
        simp [eatLit]
      rw [tagAlt, htn, eatLit_some_extend _ _ _ x hs2]
    | none => rw [hs2] at h; cases h

theorem tagAlt_none_restrict {s x : List Char} (h : tagAlt (s ++ x) = none) :
    tagAlt s = none := by
  cases ht : tagAlt s with
  | none => rfl
  | some y =>
    rcases y with ⟨m, rep, r⟩
    rw [tagAlt_some_extend x ht] at h
    cases h

theorem tagAlt_restrict {s x m rep r2 : List Char}
    (h : tagAlt (s ++ x) = some (m, rep, r2)) (hlen : m.length ≤ s.length) :
    ∃ r, tagAlt s = some (m, rep, r) ∧ r2 = r ++ x := by
  rw [tagAlt] at h
  cases ht : eatLit (str "@throws") (s ++ x) with
  | some r0 =>
    rw [ht] at h
    rcases h with ⟨⟩
    rcases eatLit_some_restrict _ _ _ _ ht hlen with ⟨r, hr, hr2⟩
    exact ⟨r, by rw [tagAlt, hr], hr2⟩
  | none =>
    rw [ht] at h
    cases hs2 : eatLit (str "@see") (s ++ x) with
    | some r0 =>
      rw [hs2] at h
      rcases h with ⟨⟩
      have ht2 : eatLit (str "@throws") s = none := eatLit_none_restrict ht
      rcases eatLit_some_restrict _ _ _ _ hs2 hlen with ⟨r, hr, hr2⟩
      exact ⟨r, by rw [tagAlt, ht2, hr], hr2⟩
    | none => rw [hs2] at h; cases h

theorem docTagMatcher_cases {s m rep r : List Char}
    (h : docTagMatcher s = some (m, rep, r)) :
    s = m ++ r ∧
      ((∃ inner, inner ≠ [] ∧ m = str "\x7b@link" ++ inner ++ ['\x7d'] ∧ rep = inner) ∨
        (m = str "@throws" ∧ rep = str "throws") ∨
        (m = str "@see" ∧ rep = str "see")) := by
  cases hl : linkAlt s with
  | some y =>
    rcases y with ⟨m1, rep1, r1⟩
    rw [docTagMatcher_link hl] at h
    rcases h with ⟨⟩
    rcases linkAlt_cases hl with ⟨inner, hne, _, hm, hrep, hs⟩
    exact ⟨hs, Or.inl ⟨inner, hne, hm, hrep⟩⟩
  | none =>
    rw [docTagMatcher_tag hl] at h
    rcases tagAlt_cases h with ⟨hc, hs⟩
    rcases hc with ⟨hm, hrep⟩ | ⟨hm, hrep⟩
    · exact ⟨hs, Or.inr (Or.inl ⟨hm, hrep⟩)⟩
    · exact ⟨hs, Or.inr (Or.inr ⟨hm, hrep⟩)⟩

theorem docTagMatcher_none_restrict {s x : List Char}
    (h : docTagMatcher (s ++ x) = none) : docTagMatcher s = none := by
  rw [docTagMatcher] at h ⊢
  cases hl : linkAlt (s ++ x) with
  | some y => rw [hl] at h; cases h
  | none =>
    rw [hl] at h
    rw [linkAlt_none_restrict hl]
    exact tagAlt_none_restrict h

theorem docTagMatcher_restrict {s x m rep r2 : List Char}
    (h : docTagMatcher (s ++ x) = some (m, rep, r2)) (hlen : m.length ≤ s.length) :
    ∃ r, docTagMatcher s = some (m, rep, r) ∧ r2 = r ++ x := by
  rw [docTagMatcher] at h
  cases hl : linkAlt (s ++ x) with
  | some y =>
    rcases y with ⟨m1, rep1, r1⟩
    rw [hl] at h
    rcases h with ⟨⟩
    rcases linkAlt_cases hl with ⟨inner, hne, hnb, hm, hrep, hs⟩
    rcases append_overlap_split hlen hs with ⟨r, hsr, hr2⟩
    have hls : linkAlt s = some (m, rep, r) := by
      rw [hsr, hm, hrep]
      have e : (str "\x7b@link" ++ inner ++ ['\x7d']) ++ r =
          str "\x7b@link" ++ (inner ++ '\x7d' :: r) := by simp
      rw [e, linkAlt_eq_some (eatLit_append _ _)]
      have htd := takeWhile_all_append (p := notBrace) (b := '\x7d') inner r hnb (by decide)
      rw [htd.1, htd.2]
      cases inner with
      | nil => exact absurd rfl hne
      | cons i inn2 => simp [linkInner]
    exact ⟨r, by rw [docTagMatcher, hls], hr2⟩
  | none =>
    rw [hl] at h
    have hl2 := linkAlt_none_restrict hl
    rcases tagAlt_restrict h hlen with ⟨r, hr, hr2⟩
    exact ⟨r, by rw [docTagMatcher, hl2, hr], hr2⟩

/- No nonempty proper suffix of a tag text starts with an opening brace or
an at sign, the two characters any doc tag match starts with. -/
theorem docTag_heads_check :
    ∀ m ∈ [str "@throws", str "@see"], ∀ L ∈ List.range m.length, 1 ≤ L →
      ((m.drop L).head? ≠ some '\x7b' ∧ (m.drop L).head? ≠ some '@') := by decide

theorem docTag_tag_within {pre1 M post r2 m : List Char}
    (hm2 : m ∈ [str "@throws", str "@see"]) (hpre : pre1 ≠ [])
    (hMh : M.head? = some '\x7b' ∨ M.head? = some '@')
    (hs : pre1 ++ (M ++ post) = m ++ r2) : m.length ≤ pre1.length := by
  by_contra hcon
  push_neg at hcon
  have hL1 : 0 < pre1.length := List.length_pos.2 hpre
  have hdrop : M ++ post = m.drop pre1.length ++ r2 := by
    have h2 := congrArg (List.drop pre1.length) hs
    rw [List.drop_left, List.drop_append_eq_append_drop,
      Nat.sub_eq_zero_of_le (le_of_lt hcon), List.drop_zero] at h2
    exact h2
  have hcheck := docTag_heads_check m hm2 pre1.length (List.mem_range.2 hcon) hL1
  have hMne : M ≠ [] := by
    intro hM0
    rw [hM0] at hMh
    rcases hMh with hh | hh <;> simp at hh
  have hdne : m.drop pre1.length ≠ [] := by
    have hml : 0 < (m.drop pre1.length).length := by
      rw [List.length_drop]
      omega
    exact List.length_pos.1 hml
  rcases List.exists_cons_of_ne_nil hMne with ⟨M0, Mr, hM0⟩
  rcases List.exists_cons_of_ne_nil hdne with ⟨d0, dr, hd0⟩
  rw [hM0, hd0] at hdrop
  have hds : M0 = d0 := by
    have h3 := congrArg List.head? hdrop
    simpa using h3
  have hdh : (m.drop pre1.length).head? = some M0 := by
    simp [hd0, hds]
  rw [hM0] at hMh
  rcases hMh with hh | hh
  · have hM0b : M0 = '\x7b' := by simpa using hh
    exact hcheck.1 (by rw [hdh, hM0b])
  · have hM0b : M0 = '@' := by simpa using hh
    exact hcheck.2 (by rw [hdh, hM0b])

/- A doc tag match found while scanning brace free text that ends exactly
where a tag or link occurrence begins lies entirely inside that earlier
text: a straddling link match would put an opening brace in the earlier
text, and a straddling tag match would force a letter to equal the
opening brace or at sign heading the occurrence. -/
theorem matchDocTag_within {pre1 M post m rep r2 : List Char}
    (hpre : pre1 ≠ []) (hbrace : '\x7b' ∉ pre1)
    (hMh : M.head? = some '\x7b' ∨ M.head? = some '@')
    (h : docTagMatcher (pre1 ++ (M ++ post)) = some (m, rep, r2)) :
    m.length ≤ pre1.length := by
  rcases docTagMatcher_cases h with ⟨hs, hcase⟩
  rcases hcase with ⟨inner, hne, hm, hrep⟩ | ⟨hm, hrep⟩ | ⟨hm, hrep⟩
  · exfalso
    rcases List.exists_cons_of_ne_nil hpre with ⟨c, p, hp⟩
    have hhead := congrArg List.head? hs
    rw [hp, hm] at hhead
    have e0 : str "\x7b@link" = '\x7b' :: str "@link" := rfl
    rw [e0] at hhead
    simp at hhead
    apply hbrace
    rw [hp, hhead]
    exact List.mem_cons_self _ _
  · exact docTag_tag_within (by rw [hm]; simp) hpre hMh hs
  · exact docTag_tag_within (by rw [hm]; simp) hpre hMh hs

theorem replaceDocTags_step {s m rep r : List Char}
    (h : docTagMatcher s = some (m, rep, r)) :
    replaceDocTags s = rep ++ replaceDocTags r :=
  replaceScan_step docTagMatcher_shrinking h

theorem replaceDocTags_nomatch {c : Char} {rest : List Char}
    (h : docTagMatcher (c :: rest) = none) :
    replaceDocTags (c :: rest) = c :: replaceDocTags rest :=
  replaceScan_nomatch h

/- The rewrite of a content holding a doc tag occurrence at any position
whose earlier text holds no opening brace: the scan rewrites the earlier
text, replaces the occurrence, then rewrites the rest. -/
theorem replaceDocTags_append_aux :
    ∀ (n : Nat) (pre : List Char), pre.length ≤ n → '\x7b' ∉ pre →
      ∀ (M rep post : List Char),
        M.head? = some '\x7b' ∨ M.head? = some '@' →
        docTagMatcher (M ++ post) = some (M, rep, post) →
        replaceDocTags (pre ++ (M ++ post)) =
          replaceDocTags pre ++ (rep ++ replaceDocTags post) := by
  intro n
  induction n with
  | zero =>
    intro pre hn _ M rep post _ hfire
    have hnil : pre = [] := List.length_eq_zero.1 (Nat.le_zero.1 hn)
    subst hnil
    rw [List.nil_append, replaceDocTags_step hfire]
    simp [replaceDocTags, replaceScan, replaceScanF]
  | succ n ih =>
    intro pre hn hbrace M rep post hMh hfire
    cases pre with
    | nil => exact ih [] (by simp) (by simp) M rep post hMh hfire
    | cons c pre2 =>
      cases hmat : docTagMatcher ((c :: pre2) ++ (M ++ post)) with
      | none =>
        have hstand : docTagMatcher (c :: pre2) = none := docTagMatcher_none_restrict hmat
        have hg1 : docTagMatcher (c :: (pre2 ++ (M ++ post))) = none := hmat
        have hbrace2 : '\x7b' ∉ pre2 := fun hx => hbrace (List.mem_cons_of_mem c hx)
        rw [List.cons_append, replaceDocTags_nomatch hg1,
          ih pre2 (by simp only [List.length_cons] at hn; omega) hbrace2 M rep post hMh hfire,
          replaceDocTags_nomatch hstand]
        simp
      | some y =>
        rcases y with ⟨m, rep2, r2⟩
        have hwithin : m.length ≤ (c :: pre2).length :=
          matchDocTag_within (by simp) hbrace hMh hmat
        rcases docTagMatcher_restrict hmat hwithin with ⟨r, hstand, hr2⟩
        have hsplit := (docTagMatcher_cases hstand).1
        have hshrink := docTagMatcher_shrinking _ _ _ _ hstand
        have hrlen : r.length ≤ n := by
          simp only [List.length_cons] at hn hshrink
          omega
        have hbrace2 : '\x7b' ∉ r := by
          intro hx
          apply hbrace
          rw [hsplit]
          exact List.mem_append_right m hx
        rw [replaceDocTags_step hmat, hr2,
          ih r hrlen hbrace2 M rep post hMh hfire,
          replaceDocTags_step hstand]
        simp

/- ---------------------- Claim C2 ---------------------- -/

/-- Counterexample to claim C2 as stated: on the content at-throws space E,
the renamed copy is throws space E, not the claimed at-throws with the
trailing description stripped; the pass deletes the at sign and leaves
the description in place. -/
theorem claim2_doc_tag_counterexample :
    newFileContent (str "@throws E") = str "throws E" ∧
      (str "throws E" : List Char) ≠ str "@throws" := by
  constructor
  · decide
  · decide

/-- Claim C2, amended: in the doc tag pass of the renamed copy produced by
createFileCopies, every occurrence of an at-link tag with brace free
nonempty inner text whose earlier text holds no opening brace is replaced
by its inner capture text only, and every occurrence of the at-throws or
at-see token whose earlier text holds no opening brace is replaced by the
bare keyword throws or see without the at sign, the rest of the text
being left in place, not stripped; an occurrence inside an open at-link
span is instead consumed by the enclosing span rewrite, as the last
example shows. -/
theorem claim2_doc_tag_rewrite :
    (∀ pre inner post : List Char, '\x7b' ∉ pre → inner ≠ [] →
      (∀ c ∈ inner, notBrace c = true) →
      replaceDocTags (pre ++ ((str "\x7b@link" ++ inner ++ ['\x7d']) ++ post)) =
        replaceDocTags pre ++ (inner ++ replaceDocTags post)) ∧
    (∀ pre post : List Char, '\x7b' ∉ pre →
      replaceDocTags (pre ++ (str "@throws" ++ post)) =
        replaceDocTags pre ++ (str "throws" ++ replaceDocTags post)) ∧
    (∀ pre post : List Char, '\x7b' ∉ pre →
      replaceDocTags (pre ++ (str "@see" ++ post)) =
        replaceDocTags pre ++ (str "see" ++ replaceDocTags post)) ∧
    newFileContent (str "\x7b@link Foo#bar\x7d") = str " Foo#bar" ∧
    newFileContent (str "a \x7b@link b\x7d c @throws E @see F") =
      str "a  b c throws E see F" ∧
    newFileContent (str "\x7b@link a@see\x7d") = str " a@see" := by
  refine ⟨?_, ?_, ?_, by decide, by decide, by decide⟩
  · intro pre inner post hbrace hne hnb
    have hfire : docTagMatcher ((str "\x7b@link" ++ inner ++ ['\x7d']) ++ post) =
        some (str "\x7b@link" ++ inner ++ ['\x7d'], inner, post) := by
      have e : (str "\x7b@link" ++ inner ++ ['\x7d']) ++ post =
          str "\x7b@link" ++ (inner ++ '\x7d' :: post) := by simp
      rw [e]
      apply docTagMatcher_link
      rw [linkAlt_eq_some (eatLit_append _ _)]
      have htd := takeWhile_all_append (p := notBrace) (b := '\x7d') inner post hnb (by decide)
      rw [htd.1, htd.2]
      cases inner with
      | nil => exact absurd rfl hne
      | cons i inner2 => simp [linkInner]
    exact replaceDocTags_append_aux pre.length pre (le_refl _) hbrace
      (str "\x7b@link" ++ inner ++ ['\x7d']) inner post (Or.inl rfl) hfire
  · intro pre post hbrace
    have hlnone : linkAlt (str "@throws" ++ post) = none := by
      apply linkAlt_eq_none
      have e1 : str "\x7b@link" = '\x7b' :: str "@link" := rfl
      have e2 : str "@throws" ++ post = '@' :: (str "throws" ++ post) := rfl
      rw [e1, e2]
      exact eatLit_ne_head (by decide)
    have hfire : docTagMatcher (str "@throws" ++ post) =
        some (str "@throws", str "throws", post) := by
      rw [docTagMatcher_tag hlnone]
      exact tagAlt_throws (eatLit_append _ _)
    exact replaceDocTags_append_aux pre.length pre (le_refl _) hbrace
      (str "@throws") (str "throws") post (Or.inr rfl) hfire
  · intro pre post hbrace
    have hlnone : linkAlt (str "@see" ++ post) = none := by
      apply linkAlt_eq_none
      have e1 : str "\x7b@link" = '\x7b' :: str "@link" := rfl
      have e2 : str "@see" ++ post = '@' :: (str "see" ++ post) := rfl
      rw [e1, e2]
      exact eatLit_ne_head (by decide)
    have htnone : eatLit (str "@throws") (str "@see" ++ post) = none := by
      have e1 : str "@throws" = '@' :: 't' :: str "hrows" := rfl
      have e2 : str "@see" ++ post = '@' :: 's' :: (str "ee" ++ post) := rfl
      rw [e1, e2]
      simp [eatLit]
    have hfire : docTagMatcher (str "@see" ++ post) =
        some (str "@see", str "see", post) := by
      rw [docTagMatcher_tag hlnone]
      exact tagAlt_see htnone (eatLit_append _ _)
    exact replaceDocTags_append_aux pre.length pre (le_refl _) hbrace
      (str "@see") (str "see") post (Or.inr rfl) hfire

/-- Witness for the amended C2 at a tag occurrence preceded by brace free
text, instantiated concretely. -/
theorem claim2_doc_tag_rewrite_witness :
    replaceDocTags (str "Doc " ++ (str "@throws" ++ str " E")) =
      replaceDocTags (str "Doc ") ++ (str "throws" ++ replaceDocTags (str " E")) :=
  claim2_doc_tag_rewrite.2.1 (str "Doc ") (str " E") (by decide)

/- ---------------------- Claim C3 ---------------------- -/

/-- Claim C3: on the comment free content of the scenario, the header strip
pattern removes the package line, the import line and the following blank
line, and for any comment stripping collaborator that leaves the comment
free remainder unchanged, createFileCopies writes exactly that remainder
to the original comparison tree. -/
theorem claim3_original_comparison (strip : List Char → List Char)
    (directory filename : List Char)
    (hstrip : strip (str "class C \x7b\x7d\n") = str "class C \x7b\x7d\n") :
    Act.write OutTree.originalComp (directory ++ '/' :: filename) (str "class C \x7b\x7d\n") ∈
      createFileCopies strip directory filename
        (str "package foo;\nimport bar.Baz;\n\nclass C \x7b\x7d\n") := by
  have hclean : packageAndImportsReplace
      (str "package foo;\nimport bar.Baz;\n\nclass C \x7b\x7d\n") = str "class C \x7b\x7d\n" := by
    decide
  have hcfc : cleanForComparison strip
      (str "package foo;\nimport bar.Baz;\n\nclass C \x7b\x7d\n") = str "class C \x7b\x7d\n" := by
    rw [cleanForComparison, hclean, hstrip]
  simp [createFileCopies, hcfc]

/-- Witness for C3 with the identity comment stripper, which is the
contract of the collaborator on comment free text. -/
theorem claim3_original_comparison_witness :
    Act.write OutTree.originalComp (str "a" ++ '/' :: str "B.java") (str "class C \x7b\x7d\n") ∈
      createFileCopies (fun s => s) (str "a") (str "B.java")
        (str "package foo;\nimport bar.Baz;\n\nclass C \x7b\x7d\n") :=
  claim3_original_comparison (fun s => s) (str "a") (str "B.java") rfl

/- ---------------------- Claim C7 ---------------------- -/

/-- Counterexample to claim C7 as stated: for the remote file path built
from directory a and filename b-c.java, the split pattern of fetchFile
finds no slash to split at, because the hyphen makes the lookahead fail,
so fetchFile mirrors a different path than the per file branch of the
directory walk does for the same file. -/
theorem claim7_split_counterexample :
    str "a/b-c.java" = str "a" ++ '/' :: str "b-c.java" ∧
    fetchFile (fun s => s) (fun _ => []) (str "a/b-c.java") false ≠
      fetchFileAux (fun s => s) (fun _ => []) (str "a") (str "b-c.java") false := by
  constructor
  · decide
  · decide

/-- Claim C7, amended: whenever the split of the combined path recovers
exactly the directory and filename of the per file branch, fetchFile and
that branch call the shared fetchFileAux with the same arguments and so
produce the same trace, downloading and writing identical content at the
same locations. -/
theorem claim7_fetchFile_refines (strip : List Char → List Char)
    (remote : List Char → List Char) (makeCopies : Bool) (directory name : List Char)
    (hsplit : jsSplitDirFile (directory ++ '/' :: name) = [directory, name]) :
    fetchFile strip remote (directory ++ '/' :: name) makeCopies =
      fetchFileAux strip remote directory name makeCopies := by
  simp [fetchFile, hsplit]

/-- Witness for the amended C7 at a well formed java file path. -/
theorem claim7_fetchFile_refines_witness :
    fetchFile (fun s => s) (fun _ => str "X") (str "a" ++ '/' :: str "Foo.java") true =
      fetchFileAux (fun s => s) (fun _ => str "X") (str "a") (str "Foo.java") true :=
  claim7_fetchFile_refines (fun s => s) (fun _ => str "X") true (str "a") (str "Foo.java")
    (by decide)

/- ---------------------- Claim C8 ---------------------- -/

theorem takeWhile_all {α} (p : α → Bool) :
    ∀ l : List α, (∀ a ∈ l, p a = true) → l.takeWhile p = l := by
  intro l
  induction l with
  | nil => intro _; rfl
  | cons a rest ih =>
    intro h
    rw [List.takeWhile]
    rw [h a (by simp)]
    simp only []
    rw [ih (fun a2 ha2 => h a2 (by simp [ha2]))]

/-- Counterexample to claim C8 as stated: with a failure oracle that fails
the original comparison write, the call performs the renamed tree write
but not the comparison writes, leaving the output trees partially
updated, against the including-on-error part of the claim. -/
theorem claim8_partial_counterexample :
    ((performedActs
        (fun a => match a with
          | Act.write OutTree.originalComp _ _ => false
          | _ => true)
        (createFileCopies (fun s => s) (str "a") (str "B.java") (str "x"))).any
        (isWriteTree OutTree.renamed) = true) ∧
    ((performedActs
        (fun a => match a with
          | Act.write OutTree.originalComp _ _ => false
          | _ => true)
        (createFileCopies (fun s => s) (str "a") (str "B.java") (str "x"))).any
        (isWriteTree OutTree.originalComp) = false) := by
  constructor
  · decide
  · decide

/-- Claim C8, amended: in a createFileCopies call in which no effect fails,
all effects are performed and the write effects are exactly the three
derived writes, to the renamed, original comparison and renamed
comparison trees, at the same path, all derived from the one input
content of the call; a mid call failure, however, can leave the writes
partial, since the effects are sequential with no rollback. -/
theorem claim8_writes_together (strip : List Char → List Char)
    (directory filename content : List Char) (ok : Act → Bool)
    (hok : ∀ a ∈ createFileCopies strip directory filename content, ok a = true) :
    performedActs ok (createFileCopies strip directory filename content) =
      createFileCopies strip directory filename content ∧
    writesOf (createFileCopies strip directory filename content) =
      [(OutTree.renamed, directory ++ '/' :: filename, newFileContent content),
       (OutTree.originalComp, directory ++ '/' :: filename, cleanForComparison strip content),
       (OutTree.renamedComp, directory ++ '/' :: filename,
         cleanForComparison strip (newFileContent content))] := by
  constructor
  · exact takeWhile_all ok _ hok
  · simp [writesOf, createFileCopies]

/-- Witness for the amended C8 with the all-succeeding oracle at a concrete
input. -/
theorem claim8_writes_together_witness :
    performedActs (fun _ => true) (createFileCopies (fun s => s) (str "a") (str "B.java")
        (str "x")) =
      createFileCopies (fun s => s) (str "a") (str "B.java") (str "x") ∧
    writesOf (createFileCopies (fun s => s) (str "a") (str "B.java") (str "x")) =
      [(OutTree.renamed, str "a" ++ '/' :: str "B.java", newFileContent (str "x")),
       (OutTree.originalComp, str "a" ++ '/' :: str "B.java",
         cleanForComparison (fun s => s) (str "x")),
       (OutTree.renamedComp, str "a" ++ '/' :: str "B.java",
         cleanForComparison (fun s => s) (newFileContent (str "x")))] :=
  claim8_writes_together (fun s => s) (str "a") (str "B.java") (str "x") (fun _ => true)
    (fun _ _ => rfl)

/- ----------------- Directory walk trace lemmas ----------------- -/

theorem foldl_preserve {α β : Type} (f : β → α → β) (Q : β → Prop) :
    ∀ (l : List α) (b : β), Q b → (∀ b2 a, Q b2 → Q (f b2 a)) → Q (l.foldl f b) := by
  intro l
  induction l with
  | nil => intro b hb _; exact hb
  | cons x xs ih => intro b hb hf; exact ih (f b x) (hf b x hb) hf

theorem mem_fetchFileAux_download {strip remote : List Char → List Char}
    {d n q : List Char} {mc : Bool}
    (h : Act.download q ∈ fetchFileAux strip remote d n mc) : q = d ++ '/' :: n := by
  cases mc <;> simp [fetchFileAux, createFileCopies] at h <;> exact h

theorem mem_fetchFileAux_write {strip remote : List Char → List Char}
    {d n q c : List Char} {t : OutTree} {mc : Bool}
    (h : Act.write t q c ∈ fetchFileAux strip remote d n mc) : q = d ++ '/' :: n := by
  cases mc <;> simp [fetchFileAux, createFileCopies] at h
  · exact h.2.1
  · rcases h with h | h | h | h <;> exact h.2.1

theorem mem_fetchFileAux_write_false {strip remote : List Char → List Char}
    {d n q c : List Char} {t : OutTree}
    (h : Act.write t q c ∈ fetchFileAux strip remote d n false) : t = OutTree.original := by
  simp [fetchFileAux] at h
  exact h.1

theorem fetchStep_preserve (strip : List Char → List Char) (skip : List (List Char))
    (remote : List Char → List Char) (mc : Bool) (directory : List Char)
    (recurse : List Char → List Act × Bool)
    (hrec : ∀ d b, b ∈ (recurse d).1 → benignAct strip remote skip mc b) :
    ∀ (acc : List Act × Bool) (e : ListingEntry),
      (∀ b ∈ acc.1, benignAct strip remote skip mc b) →
      ∀ b ∈ (fetchStep strip skip remote mc directory recurse acc e).1,
        benignAct strip remote skip mc b := by
  intro acc e hacc b hb
  simp only [fetchStep] at hb
  by_cases hrun : acc.2 = false
  · rw [if_pos hrun] at hb
    exact hacc b hb
  · rw [if_neg hrun] at hb
    by_cases hdir : e.isDirectory = true
    · rw [if_pos hdir] at hb
      rcases List.mem_append.1 hb with hb | hb
      · exact hacc b hb
      · exact hrec _ b hb
    · rw [if_neg hdir] at hb
      by_cases hskip : (directory ++ '/' :: e.name) ∈ skip
      · rw [if_pos hskip] at hb
        exact hacc b hb
      · rw [if_neg hskip] at hb
        rcases List.mem_append.1 hb with hb | hb
        · exact hacc b hb
        · exact Or.inr ⟨directory, e.name, hskip, hb⟩

theorem fetchDirectoryAux_none {strip : List Char → List Char} {skip : List (List Char)}
    {remote : List Char → List Char} {fuel : Nat} {directory : List Char} {mc : Bool}
    (hls : getFileListing (remote directory) = none) :
    fetchDirectoryAux strip skip remote (fuel + 1) directory mc =
      ([Act.listFetch directory], false) := by
  simp only [fetchDirectoryAux, hls]

theorem fetchDirectoryAux_some {strip : List Char → List Char} {skip : List (List Char)}
    {remote : List Char → List Char} {fuel : Nat} {directory : List Char} {mc : Bool}
    {entries : List ListingEntry}
    (hls : getFileListing (remote directory) = some entries) :
    fetchDirectoryAux strip skip remote (fuel + 1) directory mc =
      fetchEntriesFold strip skip remote mc directory
        (fun d => fetchDirectoryAux strip skip remote fuel d mc) entries := by
  simp only [fetchDirectoryAux, hls]

theorem fetchDirectoryAux_benign (strip : List Char → List Char) (skip : List (List Char))
    (remote : List Char → List Char) (mc : Bool) :
    ∀ (fuel : Nat) (directory : List Char) (a : Act),
      a ∈ (fetchDirectoryAux strip skip remote fuel directory mc).1 →
      benignAct strip remote skip mc a := by
  intro fuel
  induction fuel with
  | zero =>
    intro dir a ha
    simp [fetchDirectoryAux] at ha
  | succ fuel ih =>
    intro dir a ha
    cases hls : getFileListing (remote dir) with
    | none =>
      rw [fetchDirectoryAux_none hls] at ha
      simp at ha
      exact Or.inl ⟨dir, ha⟩
    | some entries =>
      rw [fetchDirectoryAux_some hls] at ha
      rw [fetchEntriesFold] at ha
      have hQ := foldl_preserve
        (fetchStep strip skip remote mc dir (fun d => fetchDirectoryAux strip skip remote fuel d mc))
        (fun (acc : List Act × Bool) => ∀ b ∈ acc.1, benignAct strip remote skip mc b)
        entries ([Act.listFetch dir], true)
        (by intro b hb; simp at hb; exact Or.inl ⟨dir, hb⟩)
        (fun acc e hacc =>
          fetchStep_preserve strip skip remote mc dir _ (fun d b hb => ih d b hb) acc e hacc)
      exact hQ a ha

/- ---------------------- Claim C5 ---------------------- -/

/-- Claim C5: over any remote and any fuel bound, a file whose combined
remote path is in the exclusion list is never downloaded by the
directory walk, and no content is ever written for it to any of the four
output trees. -/
theorem claim5_exclusion_skipped (strip : List Char → List Char) (skip : List (List Char))
    (remote : List Char → List Char) (fuel : Nat) (root : List Char) (makeCopies : Bool)
    (p : List Char) (hp : p ∈ skip) :
    Act.download p ∉ (fetchDirectory strip skip remote fuel root makeCopies).1 ∧
    ∀ (t : OutTree) (c : List Char),
      Act.write t p c ∉ (fetchDirectory strip skip remote fuel root makeCopies).1 := by
  constructor
  · intro hmem
    rw [fetchDirectory] at hmem
    rcases fetchDirectoryAux_benign strip skip remote makeCopies fuel _ _ hmem with
      ⟨d, hd⟩ | ⟨d, n, hdn, hmem2⟩
    · cases hd
    · rw [mem_fetchFileAux_download hmem2] at hp
      exact hdn hp
  · intro t c hmem
    rw [fetchDirectory] at hmem
    rcases fetchDirectoryAux_benign strip skip remote makeCopies fuel _ _ hmem with
      ⟨d, hd⟩ | ⟨d, n, hdn, hmem2⟩
    · cases hd
    · rw [mem_fetchFileAux_write hmem2] at hp
      exact hdn hp

/-- Witness for C5: a concrete remote whose listing for the walked root
contains the excluded file name; its download action is not in the
trace. -/
theorem claim5_exclusion_skipped_witness :
    Act.download (str "com/sun/media/sound/Bad.java") ∉
      (fetchDirectory (fun s => s) [str "com/sun/media/sound/Bad.java"]
        (fun q => if q = str "com/sun/media/sound" then str "Bad.java\nGood.java"
          else str "class X")
        2 (str "com/sun/media/sound") true).1 :=
  (claim5_exclusion_skipped (fun s => s) [str "com/sun/media/sound/Bad.java"]
    (fun q => if q = str "com/sun/media/sound" then str "Bad.java\nGood.java"
      else str "class X")
    2 (str "com/sun/media/sound") true (str "com/sun/media/sound/Bad.java")
    (by decide)).1

/- ---------------------- Claim C9 ---------------------- -/

theorem fetchDirectoryAux_writes_original (strip : List Char → List Char)
    (skip : List (List Char)) (remote : List Char → List Char) (fuel : Nat)
    (dir : List Char) (t : OutTree) (p c : List Char)
    (h : Act.write t p c ∈ (fetchDirectoryAux strip skip remote fuel dir false).1) :
    t = OutTree.original := by
  rcases fetchDirectoryAux_benign strip skip remote false fuel dir _ h with
    ⟨d, hd⟩ | ⟨d, n, -, hmem⟩
  · cases hd
  · exact mem_fetchFileAux_write_false hmem

/-- Claim C9: under the -d flag, every write performed by the run targets
the original mirror tree; the three derived trees are never written,
because every fetchDirectory call of the download branch disables copy
generation. -/
theorem claim9_download_only_original (strip : List Char → List Char)
    (skip : List (List Char)) (remote : List Char → List Char) (fuel : Nat)
    (t : OutTree) (p c : List Char)
    (h : Act.write t p c ∈ (mainDashD strip skip remote fuel).1) : t = OutTree.original := by
  simp only [mainDashD] at h
  by_cases h1 : (fetchDirectory strip skip remote fuel (str "javax/sound/midi") false).2 = false
  · rw [if_pos h1] at h
    exact fetchDirectoryAux_writes_original strip skip remote fuel _ t p c h
  · rw [if_neg h1] at h
    by_cases h2 :
        (fetchDirectory strip skip remote fuel (str "javax/sound/sampled") false).2 = false
    · rw [if_pos h2] at h
      rcases List.mem_append.1 h with h | h
      · exact fetchDirectoryAux_writes_original strip skip remote fuel _ t p c h
      · exact fetchDirectoryAux_writes_original strip skip remote fuel _ t p c h
    · rw [if_neg h2] at h
      rcases List.mem_append.1 h with h | h
      · rcases List.mem_append.1 h with h | h
        · exact fetchDirectoryAux_writes_original strip skip remote fuel _ t p c h
        · exact fetchDirectoryAux_writes_original strip skip remote fuel _ t p c h
      · exact fetchDirectoryAux_writes_original strip skip remote fuel _ t p c h

/-- Witness for C9: a concrete -d run whose trace contains a mirror write,
for which the theorem instantiates. -/
theorem claim9_download_only_original_witness :
    Act.write OutTree.original (str "javax/sound/midi" ++ '/' :: str "Foo.java")
        (str "class Foo") ∈
      (mainDashD (fun s => s) []
        (fun q => if q = str "javax/sound/midi" then str "Foo.java"
          else if q = str "javax/sound/midi/Foo.java" then str "class Foo" else str "")
        2).1 ∧
    OutTree.original = OutTree.original :=
  ⟨by decide,
    claim9_download_only_original (fun s => s) []
      (fun q => if q = str "javax/sound/midi" then str "Foo.java"
        else if q = str "javax/sound/midi/Foo.java" then str "class Foo" else str "")
      2 OutTree.original (str "javax/sound/midi" ++ '/' :: str "Foo.java") (str "class Foo")
      (by decide)⟩

/- ---------------------- Claim C6 ---------------------- -/

theorem applyTrace_lastWrite :
    ∀ (tr : List Act) (st : Store) (k : OutTree × List Char),
      applyTrace st tr k =
        match lastWrite k tr with
        | some c => some c
        | none => st k := by
  intro tr
  induction tr with
  | nil => intro st k; rfl
  | cons a tr ih =>
    intro st k
    have hfold : applyTrace st (a :: tr) k = applyTrace (applyAct st a) tr k := by
      rw [applyTrace, applyTrace, List.foldl_cons]
    cases a with
    | write t p c =>
      cases hlw : lastWrite k tr with
      | some c2 =>
        have h1 : lastWrite k (Act.write t p c :: tr) = some c2 := by
          simp [lastWrite, hlw]
        rw [hfold, ih, hlw, h1]
      | none =>
        by_cases hk : k = (t, p)
        · have h1 : lastWrite k (Act.write t p c :: tr) = some c := by
            simp only [lastWrite, hlw]
            rw [if_pos hk]
          rw [hfold, ih, hlw, h1]
          simp [applyAct, hk]
        · have h1 : lastWrite k (Act.write t p c :: tr) = none := by
            simp only [lastWrite, hlw]
            rw [if_neg hk]
          rw [hfold, ih, hlw, h1]
          simp [applyAct, hk]
    | listFetch d =>
      have h1 : lastWrite k (Act.listFetch d :: tr) = lastWrite k tr := rfl
      rw [hfold, ih, h1]
      cases hlw : lastWrite k tr with
      | some c2 => rfl
      | none => rfl
    | download d =>
      have h1 : lastWrite k (Act.download d :: tr) = lastWrite k tr := rfl
      rw [hfold, ih, h1]
      cases hlw : lastWrite k tr with
      | some c2 => rfl
      | none => rfl
    | mkdir d =>
      have h1 : lastWrite k (Act.mkdir d :: tr) = lastWrite k tr := rfl
      rw [hfold, ih, h1]
      cases hlw : lastWrite k tr with
      | some c2 => rfl
      | none => rfl

/-- Claim C6: running the Copy Orchestrator twice over the same unchanged
local mirror leaves the output store exactly as one run does: every
derived file is overwritten by the second run with exactly the bytes the
first run wrote, since the trace is a pure function of the mirror. -/
theorem claim6_copy_orchestrator_idempotent (strip : List Char → List Char)
    (mirror : List Dirent) (st : Store) (k : OutTree × List Char) :
    applyTrace (applyTrace st (createCopiesOfFiles strip mirror))
        (createCopiesOfFiles strip mirror) k =
      applyTrace st (createCopiesOfFiles strip mirror) k := by
  rw [applyTrace_lastWrite (createCopiesOfFiles strip mirror)
    (applyTrace st (createCopiesOfFiles strip mirror)) k]
  cases hlw : lastWrite k (createCopiesOfFiles strip mirror) with
  | some c =>
    rw [applyTrace_lastWrite (createCopiesOfFiles strip mirror) st k, hlw]
  | none => rfl
